import Mathlib

/-!
Verification of the envict configuration library against its specification.

The development shallowly embeds the library's core (schema-driven
configuration store, type converter, JSON codec used by the converter,
env-file writer, and the cycle detector) as executable Lean definitions
translated from the TypeScript source, and proves or refutes the frozen
claims about them.

Modelling conventions, used throughout:
 * JavaScript runtime values are modelled by the inductive `JSValue`.
   Numbers are modelled as `Int` (the claims only exercise integral
   values; IEEE-754 fractions and NaN are outside the embedding, and the
   NaN branch of the converter is therefore dropped).  `undefined` is not
   a value: an absent store entry models it, exactly as the engine's
   `Map.get === undefined` tests do.
 * JS `Map`s are association lists with `Map.set` replace-or-append
   semantics (`mapSet`), preserving insertion order like the original.
 * `JSON.stringify`/`JSON.parse` are host functions, not repository code;
   they are modelled by an executable serializer (`jrender`) and a fueled
   recursive-descent reader (`jparse`) over the same value type.  The
   model emits no insignificant whitespace (as `JSON.stringify` does) and
   the reader accepts none; `\uXXXX` escapes are not modelled.
 * Reference (===) equality of objects is modelled by structural equality,
   the closest expressible notion in a tree embedding.
 * Object identity and cyclic object graphs, which trees cannot express,
   get a second, heap-based model (addresses into a node table) used for
   the circular-reference detector only.
-/

/-- A JavaScript value as the engine stores and converts it. -/
inductive JSValue where
  | vNull
  | vBool (b : Bool)
  | vNum (n : Int)
  | vStr (s : String)
  | vArr (elems : List JSValue)
  | vObj (fields : List (String × JSValue))
deriving Repr

mutual

/-- Structural equality test on values (models `===` on primitives and the
single place the engine compares objects, where the tree embedding uses
structure for identity). -/
def JSValue.beqVal : JSValue → JSValue → Bool
  | .vNull, .vNull => true
  | .vBool a, .vBool b => a == b
  | .vNum a, .vNum b => a == b
  | .vStr a, .vStr b => a == b
  | .vArr xs, .vArr ys => JSValue.beqElems xs ys
  | .vObj xs, .vObj ys => JSValue.beqFields xs ys
  | _, _ => false

/-- Elementwise equality of value lists. -/
def JSValue.beqElems : List JSValue → List JSValue → Bool
  | [], [] => true
  | x :: xs, y :: ys => JSValue.beqVal x y && JSValue.beqElems xs ys
  | _, _ => false

/-- Elementwise equality of object member lists. -/
def JSValue.beqFields : List (String × JSValue) → List (String × JSValue) → Bool
  | [], [] => true
  | (k, x) :: xs, (l, y) :: ys => k == l && JSValue.beqVal x y && JSValue.beqFields xs ys
  | _, _ => false

end

/-- Structural strong induction for `JSValue`: a property closed under all
constructors, with the inductive hypothesis available for every array
element and every object member value, holds everywhere. -/
theorem JSValue.ind (P : JSValue → Prop)
    (hnull : P .vNull) (hbool : ∀ b, P (.vBool b)) (hnum : ∀ n, P (.vNum n))
    (hstr : ∀ s, P (.vStr s))
    (harr : ∀ xs, (∀ v ∈ xs, P v) → P (.vArr xs))
    (hobj : ∀ fs, (∀ kv ∈ fs, P kv.2) → P (.vObj fs)) : ∀ v, P v
  | .vNull => hnull
  | .vBool b => hbool b
  | .vNum n => hnum n
  | .vStr s => hstr s
  | .vArr xs => harr xs (fun v hv =>
      have : sizeOf v < 1 + sizeOf xs :=
        Nat.lt_of_lt_of_le (List.sizeOf_lt_of_mem hv) (Nat.le_add_left _ _)
      JSValue.ind P hnull hbool hnum hstr harr hobj v)
  | .vObj fs => hobj fs (fun kv hkv =>
      have h1 : sizeOf kv.2 < sizeOf kv := by
        obtain ⟨a, b⟩ := kv; simp
      have : sizeOf kv.2 < 1 + sizeOf fs :=
        Nat.lt_of_lt_of_le (Nat.lt_of_lt_of_le h1 (Nat.le_of_lt (List.sizeOf_lt_of_mem hkv)))
          (Nat.le_add_left _ _)
      JSValue.ind P hnull hbool hnum hstr harr hobj kv.2)
termination_by v => sizeOf v

/-- `beqVal` decides structural equality. -/
theorem JSValue.beqVal_iff : ∀ a b : JSValue, JSValue.beqVal a b = true ↔ a = b := by
  intro a
  induction a using JSValue.ind with
  | hnull => intro b; cases b <;> simp [JSValue.beqVal]
  | hbool x => intro b; cases b <;> simp [JSValue.beqVal]
  | hnum x => intro b; cases b <;> simp [JSValue.beqVal]
  | hstr x => intro b; cases b <;> simp [JSValue.beqVal]
  | harr xs ih =>
    intro b; cases b <;> simp only [JSValue.beqVal] <;> try simp
    rename_i ys
    have key : ∀ (xs : List JSValue), (∀ v ∈ xs, ∀ b, JSValue.beqVal v b = true ↔ v = b) →
        ∀ ys, JSValue.beqElems xs ys = true ↔ xs = ys := by
      intro xs hxs
      induction xs with
      | nil => intro ys; cases ys <;> simp [JSValue.beqElems]
      | cons x tl ihtl =>
        intro ys; cases ys with
        | nil => simp [JSValue.beqElems]
        | cons y ytl =>
          simp only [JSValue.beqElems, Bool.and_eq_true, List.cons.injEq]
          rw [hxs x (by simp) y, ihtl (fun v hv => hxs v (by simp [hv]) ) ytl]
    rw [key xs ih ys]
  | hobj fs ih =>
    intro b; cases b <;> simp only [JSValue.beqVal] <;> try simp
    rename_i gs
    have key : ∀ (fs : List (String × JSValue)),
        (∀ kv ∈ fs, ∀ b, JSValue.beqVal kv.2 b = true ↔ kv.2 = b) →
        ∀ gs, JSValue.beqFields fs gs = true ↔ fs = gs := by
      intro fs hfs
      induction fs with
      | nil => intro gs; cases gs <;> simp [JSValue.beqFields]
      | cons kv tl ihtl =>
        intro gs; cases gs with
        | nil => obtain ⟨k, v⟩ := kv; simp [JSValue.beqFields]
        | cons lw gtl =>
          obtain ⟨k, v⟩ := kv; obtain ⟨l, w⟩ := lw
          simp only [JSValue.beqFields, Bool.and_eq_true, List.cons.injEq, Prod.mk.injEq]
          rw [hfs (k, v) (by simp) w, ihtl (fun kv hkv => hfs kv (by simp [hkv])) gtl]
          simp [and_assoc]
    rw [key fs ih gs]

instance : DecidableEq JSValue := fun a b =>
  decidable_of_iff (JSValue.beqVal a b = true) (JSValue.beqVal_iff a b)

/-! ## The JSON codec

`JSON.stringify`/`JSON.parse` as used by the type converter's `json` and
`string` formats.  `jrender` produces the compact serialization
(`JSON.stringify` with no spacing argument); `jparse` reads it back with a
fuel-bounded recursive descent. -/

/-- Escape one character of a string literal the way the serializer writes
it: quote and backslash get a backslash, the three common control
characters get their short escapes, everything else is copied verbatim. -/
def escChar (c : Char) : List Char :=
  if c = '"' then ['\\', '"']
  else if c = '\\' then ['\\', '\\']
  else if c = '\n' then ['\\', 'n']
  else if c = '\t' then ['\\', 't']
  else if c = '\r' then ['\\', 'r']
  else [c]

/-- The body of a rendered string literal (no surrounding quotes). -/
def escBody (s : String) : List Char := s.data.flatMap escChar

/-- The decimal digit character for `d < 10`. -/
def decDigit (d : Nat) : Char := Char.ofNat (48 + d)

/-- Decimal digit characters of a natural number, most significant first. -/
def natChars (n : Nat) : List Char :=
  if n = 0 then ['0'] else ((Nat.digits 10 n).reverse.map decDigit)

/-- Decimal characters of an integer (sign, then digits), matching both
`String(n)` and the JSON rendering of an integral number. -/
def intChars (i : Int) : List Char :=
  if i < 0 then '-' :: natChars i.natAbs else natChars i.natAbs

mutual

/-- Compact JSON serialization of a value, as a character list. -/
def jrender : JSValue → List Char
  | .vNull => ['n', 'u', 'l', 'l']
  | .vBool true => ['t', 'r', 'u', 'e']
  | .vBool false => ['f', 'a', 'l', 's', 'e']
  | .vNum i => intChars i
  | .vStr s => '"' :: (escBody s ++ ['"'])
  | .vArr [] => ['[', ']']
  | .vArr (x :: xs) => '[' :: (jrender x ++ (jrenderElems xs ++ [']']))
  | .vObj [] => ['{', '}']
  | .vObj (m :: ms) => '{' :: (jrenderMember m ++ (jrenderMembers ms ++ ['}']))

/-- Remaining array elements, each preceded by a comma. -/
def jrenderElems : List JSValue → List Char
  | [] => []
  | x :: xs => ',' :: (jrender x ++ jrenderElems xs)

/-- One object member: quoted key, colon, value. -/
def jrenderMember : String × JSValue → List Char
  | (k, v) => '"' :: (escBody k ++ ('"' :: (':' :: jrender v)))

/-- Remaining object members, each preceded by a comma. -/
def jrenderMembers : List (String × JSValue) → List Char
  | [] => []
  | m :: ms => ',' :: (jrenderMember m ++ jrenderMembers ms)

end

/-- `JSON.stringify` of a value. -/
def jsonStringify (v : JSValue) : String := String.mk (jrender v)

/-- Undo one short escape of the string grammar. -/
def unescChar (c : Char) : Option Char :=
  if c = '"' then some '"'
  else if c = '\\' then some '\\'
  else if c = 'n' then some '\n'
  else if c = 't' then some '\t'
  else if c = 'r' then some '\r'
  else if c = '/' then some '/'
  else if c = 'b' then some (Char.ofNat 8)
  else if c = 'f' then some (Char.ofNat 12)
  else none

/-- Read a string-literal body up to (and past) the closing quote. -/
def readStrBody : List Char → Option (List Char × List Char)
  | [] => none
  | '"' :: r => some ([], r)
  | '\\' :: [] => none
  | '\\' :: e :: r =>
    match unescChar e with
    | some u =>
      match readStrBody r with
      | some (s, r2) => some (u :: s, r2)
      | none => none
    | none => none
  | c :: r =>
    match readStrBody r with
    | some (s, r2) => some (c :: s, r2)
    | none => none

/-- Read a nonempty run of decimal digits as a natural number. -/
def readNat (cs : List Char) : Option (Nat × List Char) :=
  let ds := cs.takeWhile Char.isDigit
  if ds = [] then none
  else some (ds.foldl (fun a c => a * 10 + (c.toNat - 48)) 0, cs.dropWhile Char.isDigit)


def jparseWord (c : Char) (r : List Char) : Option (JSValue × List Char) :=
  match c, r with
  | 'n', 'u' :: 'l' :: 'l' :: r2 => some (.vNull, r2)
  | 't', 'r' :: 'u' :: 'e' :: r2 => some (.vBool true, r2)
  | 'f', 'a' :: 'l' :: 's' :: 'e' :: r2 => some (.vBool false, r2)
  | _, _ => none

mutual

/-- Fuel-bounded recursive-descent reader for the compact JSON grammar the
serializer emits (no insignificant whitespace).  Numbers are restricted to
integer literals, matching the `Int`-valued number model. -/
def jparseVal : Nat → List Char → Option (JSValue × List Char)
  | 0, _ => none
  | _ + 1, [] => none
  | fuel + 1, c :: r =>
    if c.isDigit then
      match readNat (c :: r) with
      | some (n, r2) => some (.vNum (n : Int), r2)
      | none => none
    else if c = '-' then
      match readNat r with
      | some (n, r2) => some (.vNum (-(n : Int)), r2)
      | none => none
    else if c = '"' then
      match readStrBody r with
      | some (s, r2) => some (.vStr (String.mk s), r2)
      | none => none
    else if c = '[' then jparseArrBody fuel r
    else if c = '{' then jparseObjBody fuel r
    else jparseWord c r
termination_by fuel _ => (fuel, 0)

/-- Directly after the opening bracket: empty array, or first element then
the element tail. -/
def jparseArrBody (fuel : Nat) : List Char → Option (JSValue × List Char)
  | ']' :: r2 => some (.vArr [], r2)
  | r =>
    match jparseVal fuel r with
    | some (v, r2) => jparseArrRest fuel r2 [v]
    | none => none
termination_by _ => (fuel, 2)

/-- After an array element: the closing bracket, or a comma and the next
element. -/
def jparseArrRest : Nat → List Char → List JSValue → Option (JSValue × List Char)
  | 0, _, _ => none
  | _ + 1, ']' :: r, acc => some (.vArr acc, r)
  | fuel + 1, ',' :: r, acc =>
    match jparseVal fuel r with
    | some (v, r2) => jparseArrRest fuel r2 (acc ++ [v])
    | none => none
  | _ + 1, _, _ => none
termination_by fuel _ _ => (fuel, 1)

/-- Directly after the opening brace: empty object, or first `"key":value`
member then the member tail. -/
def jparseObjBody (fuel : Nat) : List Char → Option (JSValue × List Char)
  | '}' :: r2 => some (.vObj [], r2)
  | '"' :: r2 =>
    match readStrBody r2 with
    | some (k, r3) =>
      match r3 with
      | ':' :: r4 =>
        match jparseVal fuel r4 with
        | some (v, r5) => jparseObjRest fuel r5 [(String.mk k, v)]
        | none => none
      | _ => none
    | none => none
  | _ => none
termination_by _ => (fuel, 2)

/-- After an object member: the closing brace, or a comma and the next
member. -/
def jparseObjRest : Nat → List Char → List (String × JSValue) → Option (JSValue × List Char)
  | 0, _, _ => none
  | _ + 1, '}' :: r, acc => some (.vObj acc, r)
  | fuel + 1, ',' :: '"' :: r, acc =>
    match readStrBody r with
    | some (k, r2) =>
      match r2 with
      | ':' :: r3 =>
        match jparseVal fuel r3 with
        | some (v, r4) => jparseObjRest fuel r4 (acc ++ [(String.mk k, v)])
        | none => none
      | _ => none
    | none => none
  | _ + 1, _, _ => none
termination_by fuel _ _ => (fuel, 1)

end

/-- `JSON.parse` of a whole document: the reader must consume every
character. -/
def jsonParse (s : String) : Option JSValue :=
  match jparseVal (s.data.length + 1) s.data with
  | some (v, []) => some v
  | _ => none

/-! ## Round-trip of the JSON codec -/

/-- `headNonDigit cs` holds when `cs` cannot extend a digit run: it is empty
or starts with a non-digit.  Every delimiter the serializer can emit after
a number qualifies. -/
def headNonDigit : List Char → Prop
  | [] => True
  | c :: _ => c.isDigit = false

theorem decDigit_isDigit {d : Nat} (h : d < 10) : (decDigit d).isDigit = true := by
  interval_cases d <;> decide

theorem decDigit_toNat {d : Nat} (h : d < 10) : (decDigit d).toNat - 48 = d := by
  interval_cases d <;> decide

theorem natChars_all_digits (n : Nat) : ∀ c ∈ natChars n, c.isDigit = true := by
  intro c hc
  unfold natChars at hc
  by_cases h0 : n = 0
  · simp [h0] at hc; subst hc; decide
  · rw [if_neg h0] at hc
    simp only [List.mem_map, List.mem_reverse] at hc
    obtain ⟨d, hd, rfl⟩ := hc
    exact decDigit_isDigit (Nat.digits_lt_base (by norm_num) hd)

theorem natChars_ne_nil (n : Nat) : natChars n ≠ [] := by
  unfold natChars
  by_cases h0 : n = 0
  · simp [h0]
  · rw [if_neg h0]
    simp [Nat.digits_ne_nil_iff_ne_zero.mpr h0]

theorem foldl_natChars (n : Nat) :
    (natChars n).foldl (fun a c => a * 10 + (c.toNat - 48)) 0 = n := by
  unfold natChars
  by_cases h0 : n = 0
  · simp [h0, decDigit]
  · rw [if_neg h0]
    have hlt : ∀ d ∈ Nat.digits 10 n, d < 10 := fun d hd =>
      Nat.digits_lt_base (by norm_num) hd
    have hmap : ∀ (l : List Nat) (a : Nat), (∀ d ∈ l, d < 10) →
        (l.map decDigit).foldl (fun a c => a * 10 + (c.toNat - 48)) a
          = l.foldl (fun a d => a * 10 + d) a := by
      intro l
      induction l with
      | nil => intro a _; rfl
      | cons d tl ih =>
        intro a hl
        simp only [List.map_cons, List.foldl_cons]
        rw [decDigit_toNat (hl d (by simp))]
        exact ih _ (fun x hx => hl x (by simp [hx]))
    rw [hmap _ 0 (fun d hd => hlt d (List.mem_reverse.mp hd))]
    rw [List.foldl_reverse]
    have hfr : ∀ l : List Nat, l.foldr (fun d a => a * 10 + d) 0 = Nat.ofDigits 10 l := by
      intro l
      induction l with
      | nil => simp [Nat.ofDigits]
      | cons d tl ih => simp [Nat.ofDigits, ih]; ring
    rw [hfr]
    exact_mod_cast Nat.ofDigits_digits 10 n

theorem takeWhile_digits_append (ds rest : List Char)
    (hds : ∀ c ∈ ds, c.isDigit = true) (hrest : headNonDigit rest) :
    (ds ++ rest).takeWhile Char.isDigit = ds ∧
      (ds ++ rest).dropWhile Char.isDigit = rest := by
  induction ds with
  | nil =>
    simp only [List.nil_append]
    cases rest with
    | nil => simp
    | cons c t =>
      simp only [headNonDigit] at hrest
      simp [List.takeWhile_cons, List.dropWhile_cons, hrest]
  | cons c tl ih =>
    have hc := hds c (by simp)
    have ihr := ih (fun x hx => hds x (by simp [hx]))
    simp [List.takeWhile_cons, List.dropWhile_cons, hc, ihr.1, ihr.2]

theorem readNat_natChars (n : Nat) (rest : List Char) (hrest : headNonDigit rest) :
    readNat (natChars n ++ rest) = some (n, rest) := by
  obtain ⟨h1, h2⟩ := takeWhile_digits_append (natChars n) rest (natChars_all_digits n) hrest
  unfold readNat
  simp only [h1, h2, if_neg (natChars_ne_nil n), foldl_natChars]

theorem readStrBody_escChar (c : Char) (rest : List Char) :
    readStrBody (escChar c ++ rest) =
      match readStrBody rest with
      | some (s, r2) => some (c :: s, r2)
      | none => none := by
  unfold escChar
  by_cases h1 : c = '"'
  · subst h1; simp [readStrBody, unescChar]
  by_cases h2 : c = '\\'
  · subst h2; simp [readStrBody, unescChar]
  by_cases h3 : c = '\n'
  · subst h3; simp [readStrBody, unescChar]
  by_cases h4 : c = '\t'
  · subst h4; simp [readStrBody, unescChar]
  by_cases h5 : c = '\r'
  · subst h5; simp [readStrBody, unescChar]
  · simp only [if_neg h1, if_neg h2, if_neg h3, if_neg h4, if_neg h5, List.cons_append,
      List.nil_append]
    rw [readStrBody.eq_def]
    cases rest with
    | nil => simp [h1, h2]
    | cons d t => simp [h1, h2]

theorem readStrBody_escBody (l : List Char) (rest : List Char) :
    readStrBody (l.flatMap escChar ++ '"' :: rest) = some (l, rest) := by
  induction l with
  | nil => simp [readStrBody]
  | cons c tl ih =>
    rw [List.flatMap_cons, List.append_assoc, readStrBody_escChar, ih]

/-- A rendered value starts with a character that is not one of the three
closers/separators the composite grammar dispatches on. -/
theorem jrender_head (v : JSValue) :
    ∃ c t, jrender v = c :: t ∧ c ≠ ']' ∧ c ≠ '}' ∧ c ≠ ',' ∧ c ≠ ':' := by
  cases v with
  | vNull => exact ⟨'n', _, rfl, by decide, by decide, by decide, by decide⟩
  | vBool b => cases b with
    | true => exact ⟨'t', _, rfl, by decide, by decide, by decide, by decide⟩
    | false => exact ⟨'f', _, rfl, by decide, by decide, by decide, by decide⟩
  | vNum i =>
    by_cases hneg : i < 0
    · refine ⟨'-', natChars i.natAbs, ?_, by decide, by decide, by decide, by decide⟩
      simp [jrender, intChars, hneg]
    · obtain ⟨c, t, hct⟩ : ∃ c t, natChars i.natAbs = c :: t := by
        cases h : natChars i.natAbs with
        | nil => exact absurd h (natChars_ne_nil _)
        | cons c t => exact ⟨c, t, rfl⟩
      have hd : c.isDigit = true := natChars_all_digits i.natAbs c (hct ▸ List.mem_cons_self ..)
      refine ⟨c, t, ?_, ?_, ?_, ?_, ?_⟩
      · simp [jrender, intChars, hneg, hct]
      all_goals intro h; subst h; exact absurd hd (by decide)
  | vStr s => exact ⟨'"', _, rfl, by decide, by decide, by decide, by decide⟩
  | vArr xs => cases xs with
    | nil => exact ⟨'[', _, rfl, by decide, by decide, by decide, by decide⟩
    | cons x tl => exact ⟨'[', _, rfl, by decide, by decide, by decide, by decide⟩
  | vObj fs => cases fs with
    | nil => exact ⟨'{', _, rfl, by decide, by decide, by decide, by decide⟩
    | cons m tl => exact ⟨'{', _, rfl, by decide, by decide, by decide, by decide⟩

theorem headNonDigit_elems (xs : List JSValue) (rest : List Char) :
    headNonDigit (jrenderElems xs ++ ']' :: rest) := by
  cases xs <;> simp [jrenderElems, headNonDigit]

theorem headNonDigit_members (ms : List (String × JSValue)) (rest : List Char) :
    headNonDigit (jrenderMembers ms ++ '}' :: rest) := by
  cases ms <;> simp [jrenderMembers, headNonDigit]


theorem jparseVal_digitStep (f : Nat) (c : Char) (t : List Char) (hd : c.isDigit = true) :
    jparseVal (f + 1) (c :: t) =
      match readNat (c :: t) with
      | some (n, r2) => some (.vNum (n : Int), r2)
      | none => none := by
  rw [jparseVal.eq_def]
  simp only [hd, if_true]

theorem jparseVal_negStep (f : Nat) (t : List Char) :
    jparseVal (f + 1) ('-' :: t) =
      match readNat t with
      | some (n, r2) => some (.vNum (-(n : Int)), r2)
      | none => none := by
  rw [jparseVal.eq_def]
  simp

theorem jparseVal_quoteStep (f : Nat) (t : List Char) :
    jparseVal (f + 1) ('"' :: t) =
      match readStrBody t with
      | some (s, r2) => some (.vStr (String.mk s), r2)
      | none => none := by
  rw [jparseVal.eq_def]
  simp

theorem jparseVal_arrStep (f : Nat) (t : List Char) :
    jparseVal (f + 1) ('[' :: t) = jparseArrBody f t := by
  rw [jparseVal.eq_def]
  simp

theorem jparseVal_objStep (f : Nat) (t : List Char) :
    jparseVal (f + 1) ('{' :: t) = jparseObjBody f t := by
  rw [jparseVal.eq_def]
  simp

theorem jparseArrBody_cons (f : Nat) (c0 : Char) (t : List Char) (h : c0 ≠ ']') :
    jparseArrBody f (c0 :: t) =
      match jparseVal f (c0 :: t) with
      | some (v, r2) => jparseArrRest f r2 [v]
      | none => none := by
  rw [jparseArrBody.eq_def]
  simp [h]

theorem jparseObjBody_quote (f : Nat) (t : List Char) :
    jparseObjBody f ('"' :: t) =
      match readStrBody t with
      | some (k, r3) =>
        match r3 with
        | ':' :: r4 =>
          match jparseVal f r4 with
          | some (v, r5) => jparseObjRest f r5 [(String.mk k, v)]
          | none => none
        | _ => none
      | none => none := by
  rw [jparseObjBody.eq_def]
  simp

theorem jparseArrRest_close (f : Nat) (r : List Char) (acc : List JSValue) :
    jparseArrRest (f + 1) (']' :: r) acc = some (.vArr acc, r) := by
  rw [jparseArrRest.eq_def]
  simp

theorem jparseArrRest_comma (f : Nat) (r : List Char) (acc : List JSValue) :
    jparseArrRest (f + 1) (',' :: r) acc =
      match jparseVal f r with
      | some (v, r2) => jparseArrRest f r2 (acc ++ [v])
      | none => none := by
  rw [jparseArrRest.eq_def]
  simp

theorem jparseObjRest_close (f : Nat) (r : List Char) (acc : List (String × JSValue)) :
    jparseObjRest (f + 1) ('}' :: r) acc = some (.vObj acc, r) := by
  rw [jparseObjRest.eq_def]
  simp

theorem jparseObjRest_comma (f : Nat) (r : List Char) (acc : List (String × JSValue)) :
    jparseObjRest (f + 1) (',' :: '"' :: r) acc =
      match readStrBody r with
      | some (k, r2) =>
        match r2 with
        | ':' :: r3 =>
          match jparseVal f r3 with
          | some (v, r4) => jparseObjRest f r4 (acc ++ [(String.mk k, v)])
          | none => none
        | _ => none
      | none => none := by
  rw [jparseObjRest.eq_def]
  simp

theorem stringMk_data (s : String) : String.mk s.data = s := by cases s; rfl

theorem jparseArrBody_close (f : Nat) (r : List Char) :
    jparseArrBody f (']' :: r) = some (.vArr [], r) := by
  rw [jparseArrBody.eq_def]
  rfl

theorem jparseObjBody_close (f : Nat) (r : List Char) :
    jparseObjBody f ('}' :: r) = some (.vObj [], r) := by
  rw [jparseObjBody.eq_def]
  rfl

/-- The object-body reader on a rendered first member. -/
theorem jparseObjBody_member (f : Nat) (k : String) (tail : List Char) :
    jparseObjBody f ('"' :: (k.data.flatMap escChar ++ ('"' :: (':' :: tail)))) =
      match jparseVal f tail with
      | some (v, r5) => jparseObjRest f r5 [(k, v)]
      | none => none := by
  rw [jparseObjBody_quote, readStrBody_escBody]
  simp [stringMk_data]

/-- The object-tail reader on a comma followed by a rendered member. -/
theorem jparseObjRest_member (f : Nat) (k : String) (tail : List Char)
    (acc : List (String × JSValue)) :
    jparseObjRest (f + 1) (',' :: '"' :: (k.data.flatMap escChar ++ ('"' :: (':' :: tail)))) acc =
      match jparseVal f tail with
      | some (v, r4) => jparseObjRest f r4 (acc ++ [(k, v)])
      | none => none := by
  rw [jparseObjRest_comma, readStrBody_escBody]
  simp [stringMk_data]

mutual

/-- Reading a rendered value back yields the value, for any fuel beyond its
length and any remainder that cannot extend a number literal. -/
theorem jrt_val : ∀ (v : JSValue) (fuel : Nat) (rest : List Char),
    (jrender v).length < fuel → headNonDigit rest →
    jparseVal fuel (jrender v ++ rest) = some (v, rest)
  | .vNull, fuel, rest, hf, _ => by
    cases fuel with
    | zero => exact absurd hf (by simp)
    | succ f =>
      have hsplit : jrender .vNull ++ rest = 'n' :: 'u' :: 'l' :: 'l' :: rest := by
        simp [jrender]
      rw [hsplit, jparseVal.eq_def]
      simp [jparseWord]
  | .vBool true, fuel, rest, hf, _ => by
    cases fuel with
    | zero => exact absurd hf (by simp)
    | succ f =>
      have hsplit : jrender (.vBool true) ++ rest = 't' :: 'r' :: 'u' :: 'e' :: rest := by
        simp [jrender]
      rw [hsplit, jparseVal.eq_def]
      simp [jparseWord]
  | .vBool false, fuel, rest, hf, _ => by
    cases fuel with
    | zero => exact absurd hf (by simp)
    | succ f =>
      have hsplit : jrender (.vBool false) ++ rest = 'f' :: 'a' :: 'l' :: 's' :: 'e' :: rest := by
        simp [jrender]
      rw [hsplit, jparseVal.eq_def]
      simp [jparseWord]
  | .vNum i, fuel, rest, hf, hr => by
    cases fuel with
    | zero => exact absurd hf (by omega)
    | succ f =>
      by_cases hneg : i < 0
      · have hsplit : jrender (.vNum i) ++ rest = '-' :: (natChars i.natAbs ++ rest) := by
          simp [jrender, intChars, hneg]
        rw [hsplit, jparseVal_negStep, readNat_natChars _ _ hr]
        simp only [Option.some.injEq, Prod.mk.injEq, JSValue.vNum.injEq, and_true]
        omega
      · obtain ⟨c, t, hct⟩ : ∃ c t, natChars i.natAbs = c :: t := by
          cases h : natChars i.natAbs with
          | nil => exact absurd h (natChars_ne_nil _)
          | cons c t => exact ⟨c, t, rfl⟩
        have hd : c.isDigit = true := natChars_all_digits i.natAbs c (hct ▸ List.mem_cons_self ..)
        have hsplit : jrender (.vNum i) ++ rest = c :: (t ++ rest) := by
          simp [jrender, intChars, hneg, hct]
        rw [hsplit, jparseVal_digitStep f c _ hd]
        have hback : c :: (t ++ rest) = natChars i.natAbs ++ rest := by simp [hct]
        rw [hback, readNat_natChars _ _ hr]
        simp only [Option.some.injEq, Prod.mk.injEq, JSValue.vNum.injEq, and_true]
        omega
  | .vStr s, fuel, rest, hf, _ => by
    cases fuel with
    | zero => exact absurd hf (by omega)
    | succ f =>
      have hsplit : jrender (.vStr s) ++ rest = '"' :: (escBody s ++ '"' :: rest) := by
        simp [jrender]
      rw [hsplit, jparseVal_quoteStep, escBody, readStrBody_escBody]
  | .vArr [], fuel, rest, hf, _ => by
    cases fuel with
    | zero => exact absurd hf (by omega)
    | succ f =>
      have hsplit : jrender (.vArr []) ++ rest = '[' :: ']' :: rest := by simp [jrender]
      rw [hsplit, jparseVal_arrStep, jparseArrBody_close]
  | .vArr (x :: xs), fuel, rest, hf, hr => by
    cases fuel with
    | zero => exact absurd hf (by omega)
    | succ f =>
      have hlen : (jrender (.vArr (x :: xs))).length
          = 1 + ((jrender x).length + ((jrenderElems xs).length + 1)) := by
        simp [jrender]
        omega
      obtain ⟨c0, t0, hx, hc0, _, _, _⟩ := jrender_head x
      have hsplit : jrender (.vArr (x :: xs)) ++ rest
          = '[' :: (jrender x ++ (jrenderElems xs ++ ']' :: rest)) := by
        simp [jrender]
      rw [hsplit, jparseVal_arrStep, hx, List.cons_append,
        jparseArrBody_cons f c0 _ hc0, ← List.cons_append, ← hx,
        jrt_val x f _ (by omega) (headNonDigit_elems xs rest)]
      exact jrt_arr xs [x] f rest (by omega)
  | .vObj [], fuel, rest, hf, _ => by
    cases fuel with
    | zero => exact absurd hf (by omega)
    | succ f =>
      have hsplit : jrender (.vObj []) ++ rest = '{' :: '}' :: rest := by simp [jrender]
      rw [hsplit, jparseVal_objStep, jparseObjBody_close]
  | .vObj ((k, v) :: ms), fuel, rest, hf, hr => by
    cases fuel with
    | zero => exact absurd hf (by omega)
    | succ f =>
      have hlen : (jrender (.vObj ((k, v) :: ms))).length
          = 1 + ((jrenderMember (k, v)).length + ((jrenderMembers ms).length + 1)) := by
        simp [jrender]
        omega
      have hlenm : (jrenderMember (k, v)).length = 1 + ((escBody k).length + (2 + (jrender v).length)) := by
        simp [jrenderMember, escBody]
        omega
      have hsplit : jrender (.vObj ((k, v) :: ms)) ++ rest
          = '{' :: ('"' :: (k.data.flatMap escChar
              ++ ('"' :: (':' :: (jrender v ++ (jrenderMembers ms ++ '}' :: rest)))))) := by
        simp [jrender, jrenderMember, escBody]
      rw [hsplit, jparseVal_objStep, jparseObjBody_member,
        jrt_val v f _ (by omega) (headNonDigit_members ms rest)]
      exact jrt_obj ms [(k, v)] f rest (by omega)
termination_by v _ _ _ _ => sizeOf v

/-- Reading the rendered tail of an array appends the remaining elements to
the accumulator. -/
theorem jrt_arr : ∀ (xs acc : List JSValue) (fuel : Nat) (rest : List Char),
    (jrenderElems xs).length + 1 ≤ fuel →
    jparseArrRest fuel (jrenderElems xs ++ ']' :: rest) acc = some (.vArr (acc ++ xs), rest)
  | [], acc, fuel, rest, hf => by
    cases fuel with
    | zero => omega
    | succ f =>
      have hsplit : jrenderElems [] ++ ']' :: rest = ']' :: rest := by simp [jrenderElems]
      rw [hsplit, jparseArrRest_close]
      simp
  | x :: tl, acc, fuel, rest, hf => by
    cases fuel with
    | zero => omega
    | succ f =>
      have hlen : (jrenderElems (x :: tl)).length
          = 1 + ((jrender x).length + (jrenderElems tl).length) := by
        simp [jrenderElems]
        omega
      have hsplit : jrenderElems (x :: tl) ++ ']' :: rest
          = ',' :: (jrender x ++ (jrenderElems tl ++ ']' :: rest)) := by
        simp [jrenderElems]
      rw [hsplit, jparseArrRest_comma,
        jrt_val x f _ (by omega) (headNonDigit_elems tl rest)]
      have htl := jrt_arr tl (acc ++ [x]) f rest (by omega)
      simpa using htl
termination_by xs _ _ _ _ => sizeOf xs

/-- Reading the rendered tail of an object appends the remaining members to
the accumulator. -/
theorem jrt_obj : ∀ (ms acc : List (String × JSValue)) (fuel : Nat) (rest : List Char),
    (jrenderMembers ms).length + 1 ≤ fuel →
    jparseObjRest fuel (jrenderMembers ms ++ '}' :: rest) acc = some (.vObj (acc ++ ms), rest)
  | [], acc, fuel, rest, hf => by
    cases fuel with
    | zero => omega
    | succ f =>
      have hsplit : jrenderMembers [] ++ '}' :: rest = '}' :: rest := by simp [jrenderMembers]
      rw [hsplit, jparseObjRest_close]
      simp
  | (k, v) :: tl, acc, fuel, rest, hf => by
    cases fuel with
    | zero => omega
    | succ f =>
      have hlen : (jrenderMembers ((k, v) :: tl)).length
          = 1 + ((jrenderMember (k, v)).length + (jrenderMembers tl).length) := by
        simp [jrenderMembers]
        omega
      have hlenm : (jrenderMember (k, v)).length
          = 1 + ((escBody k).length + (2 + (jrender v).length)) := by
        simp [jrenderMember, escBody]
        omega
      have hsplit : jrenderMembers ((k, v) :: tl) ++ '}' :: rest
          = ',' :: ('"' :: (k.data.flatMap escChar
              ++ ('"' :: (':' :: (jrender v ++ (jrenderMembers tl ++ '}' :: rest)))))) := by
        simp [jrenderMembers, jrenderMember, escBody]
      rw [hsplit, jparseObjRest_member,
        jrt_val v f _ (by omega) (headNonDigit_members tl rest)]
      have htl := jrt_obj tl (acc ++ [(k, v)]) f rest (by omega)
      simpa using htl
termination_by ms _ _ _ _ => sizeOf ms

end

/-- Full-document round trip: reading back a serialized value recovers it. -/
theorem jsonParse_stringify (v : JSValue) : jsonParse (jsonStringify v) = some v := by
  unfold jsonParse jsonStringify
  have hfuel : (jrender v).length < (String.mk (jrender v)).data.length + 1 := by simp
  have h := jrt_val v ((String.mk (jrender v)).data.length + 1) [] hfuel trivial
  rw [List.append_nil] at h
  simp only [h]

/-! ## Errors

The library's error classes (`ValidationError`, `ParseError`, `FileError`)
share the shape `(message, property, value)`; the dynamically-typed third
argument receives the offending raw value for property errors and the
array of underlying errors for the aggregate, so the model splits it into
a `value` and a `subErrors` field by payload type. -/

/-- Which error class was raised. -/
inductive ErrKind where
  | validation
  | parse
  | file
deriving DecidableEq, Repr

/-- One raised error. -/
inductive Err where
  | mk (kind : ErrKind) (message : String) (property : String)
       (value : Option JSValue) (subErrors : List Err)
deriving Repr

def Err.kind : Err → ErrKind
  | .mk k _ _ _ _ => k

def Err.message : Err → String
  | .mk _ m _ _ _ => m

def Err.property : Err → String
  | .mk _ _ p _ _ => p

def Err.value : Err → Option JSValue
  | .mk _ _ _ v _ => v

def Err.subErrors : Err → List Err
  | .mk _ _ _ _ es => es

/-! ## Common string helpers -/

/-- `Array.prototype.join(sep)` / the string join the engine uses. -/
def joinSep (sep : String) : List String → String
  | [] => ""
  | [x] => x
  | x :: tl => x ++ sep ++ joinSep sep tl

/-- Both-ends whitespace trim (`String.prototype.trim`) at character level. -/
def trimChars (l : List Char) : List Char :=
  ((l.dropWhile Char.isWhitespace).reverse.dropWhile Char.isWhitespace).reverse

/-- `toUpperCase` (ASCII, which is all the engine upper-cases). -/
def jsUpper (s : String) : String := String.mk (s.data.map Char.toUpper)

/-- `toLowerCase` (ASCII). -/
def jsLower (s : String) : String := String.mk (s.data.map Char.toLower)

/-- `typeof` for modelled values (`typeof null` is `"object"`). -/
def jsTypeof : JSValue → String
  | .vNull => "object"
  | .vBool _ => "boolean"
  | .vNum _ => "number"
  | .vStr _ => "string"
  | .vArr _ => "object"
  | .vObj _ => "object"

/-- `String(x)` for an integral number. -/
def intString (i : Int) : String := String.mk (intChars i)

/-! ## The type converter (`convertValue` and its per-format helpers) -/

/-- A property's declared format: a built-in kind or a pattern, the latter
carried as its match predicate plus its printed source text. -/
inductive Format where
  | fString
  | fNumber
  | fBoolean
  | fJson
  | fRegex (test : String → Bool) (source : String)

/-- `Number(s)` restricted to the integral grammar of the model: optional
sign then decimal digits, surrounding whitespace ignored. -/
def jsNumberParse (s : String) : Option Int :=
  let digitsVal := fun (ds : List Char) =>
    (ds.foldl (fun a c => a * 10 + (c.toNat - 48)) 0 : Nat)
  match trimChars s.data with
  | [] => some 0
  | '-' :: ds =>
    if ds ≠ [] ∧ ds.all Char.isDigit then some (-(digitsVal ds : Int)) else none
  | '+' :: ds =>
    if ds ≠ [] ∧ ds.all Char.isDigit then some ((digitsVal ds : Int)) else none
  | ds =>
    if ds.all Char.isDigit then some ((digitsVal ds : Int)) else none

/-- `convertToString`: strings pass, numbers and booleans stringify, `null`
is refused, objects and arrays serialize structurally.  On the tree
embedding the circular-reference walk cannot fire (trees are acyclic); the
heap embedding below carries the detector. -/
def convertToString (value : JSValue) (property : String) : Except Err String :=
  match value with
  | .vStr s => .ok s
  | .vNum n => .ok (intString n)
  | .vBool b => .ok (if b then "true" else "false")
  | .vNull => .error (.mk .parse "Cannot convert null value to a string." property
      (some .vNull) [])
  | .vArr xs => .ok (jsonStringify (.vArr xs))
  | .vObj fs => .ok (jsonStringify (.vObj fs))

/-- `convertToNumber` (the NaN branch concerns IEEE values outside the
integral model). -/
def convertToNumber (value : JSValue) (property : String) : Except Err Int :=
  match value with
  | .vNum n => .ok n
  | .vStr s =>
    if trimChars s.data = [] then
      .error (.mk .parse
        "Cannot convert empty string to number. Expected a numeric string like \"123\", \"45.67\", or \"-89\"."
        property (some (.vStr s)) [])
    else
      match jsNumberParse s with
      | some n => .ok n
      | none => .error (.mk .parse
          ("Cannot convert \"" ++ s ++ "\" to number. Expected a valid numeric string like \"123\", \"45.67\", or \"-89\".")
          property (some (.vStr s)) [])
  | .vBool b => .ok (if b then 1 else 0)
  | v => .error (.mk .parse
      ("Cannot convert " ++ jsTypeof v ++ " to number. Expected a string, number, or boolean value.")
      property (some v) [])

/-- `convertToBoolean`. -/
def convertToBoolean (value : JSValue) (property : String) : Except Err Bool :=
  match value with
  | .vBool b => .ok b
  | .vStr s =>
    let low := trimChars ((jsLower s).data)
    if low = "true".data ∨ low = "1".data then .ok true
    else if low = "false".data ∨ low = "0".data then .ok false
    else .error (.mk .parse
      ("Cannot convert \"" ++ s ++ "\" to boolean. Expected: true, false, 1, or 0 (case insensitive)")
      property (some (.vStr s)) [])
  | .vNum n =>
    if n = 1 then .ok true
    else if n = 0 then .ok false
    else .error (.mk .parse
      ("Cannot convert number " ++ intString n ++ " to boolean. Expected: 1 (true) or 0 (false)")
      property (some (.vNum n)) [])
  | v => .error (.mk .parse ("Cannot convert " ++ jsTypeof v ++ " to boolean")
      property (some v) [])

/-- `convertToJSON`: only strings are parsed; the host parser's diagnostic
embedded in the failure message is modelled by a fixed token. -/
def convertToJSON (value : JSValue) (property : String) : Except Err JSValue :=
  match value with
  | .vStr s =>
    if trimChars s.data = [] then
      .error (.mk .parse
        "Cannot parse empty string as JSON. Expected a valid JSON string like '\x7b\"key\": \"value\"\x7d', '[1, 2, 3]', or '\"string\"'."
        property (some (.vStr s)) [])
    else
      match jsonParse s with
      | some v => .ok v
      | none => .error (.mk .parse
          "Invalid JSON: syntax error. Expected valid JSON syntax like '\x7b\"key\": \"value\"\x7d', '[1, 2, 3]', or '\"string\"'."
          property (some (.vStr s)) [])
  | v => .error (.mk .parse
      ("JSON format expects a string value, got " ++ jsTypeof v ++
       ". Expected a valid JSON string like '\x7b\"key\": \"value\"\x7d' or '[1, 2, 3]'.")
      property (some v) [])

/-- `validateRegex`: stringify like the string format, then test. -/
def validateRegex (value : JSValue) (test : String → Bool) (source : String)
    (property : String) : Except Err String :=
  match convertToString value property with
  | .error e => .error e
  | .ok s =>
    if test s then .ok s
    else .error (.mk .validation
      ("Value \"" ++ s ++ "\" does not match required pattern: " ++ source)
      property (some value) [])

/-- `convertValue`: `null` (and, as absence, `undefined`) passes through
untouched; otherwise dispatch on the format. -/
def convertValue (value : JSValue) (format : Format) (property : String) :
    Except Err JSValue :=
  if value = .vNull then .ok .vNull
  else
    match format with
    | .fRegex test source => (validateRegex value test source property).map .vStr
    | .fString => (convertToString value property).map .vStr
    | .fNumber => (convertToNumber value property).map .vNum
    | .fBoolean => (convertToBoolean value property).map .vBool
    | .fJson => convertToJSON value property

/-! ## The configuration store engine -/

/-- A parsed leaf property definition. -/
structure SchemaProp where
  format : Format
  env : Option String := none
  default : Option JSValue := none
  description : Option String := none

/-- The three flat maps the schema parser produces (association lists in
insertion order; `envMappings` maps environment-variable name to
property path). -/
structure ParsedSchema where
  properties : List (String × SchemaProp)
  envMappings : List (String × String)
  defaults : List (String × JSValue)

/-- `Map.set` (also plain JS object assignment): overwrite the existing
entry in place, or append a fresh key.  `Map` keys are unique, so
replacing the first match is the whole update. -/
def mapSet {α : Type} : List (String × α) → String → α → List (String × α)
  | [], k, v => [(k, v)]
  | kv :: tl, k, v => if kv.1 == k then (k, v) :: tl else kv :: mapSet tl k v

/-- `Map.get` (`undefined` is `none`). -/
def mapGet {α : Type} (m : List (String × α)) (k : String) : Option α :=
  (m.find? (fun kv => kv.1 == k)).map (fun kv => kv.2)

/-- The engine's flat key/value store (`this.config`). -/
abbrev Store := List (String × JSValue)

/-- Merge key/value pairs on top of a map in order, later keys
overwriting (the engine's `for … of Object.entries(data) { map.set(k, v) }`
loops, and plain-object record building). -/
def mergeInto {α : Type} (store : List (String × α)) (data : List (String × α)) :
    List (String × α) :=
  data.foldl (fun st kv => mapSet st kv.1 kv.2) store

/-- `applyDefaults`, seeding the (empty) store of a new instance. -/
def applyDefaults (ps : ParsedSchema) : Store :=
  mergeInto ([] : Store) ps.defaults

/-- The inversion `envVar→path` to `path→envVar` done in
`loadFromEnvironment` (later entries overwrite at the same path). -/
def invertMappings (ms : List (String × String)) : List (String × String) :=
  mergeInto [] (ms.map (fun kv => (kv.2, kv.1)))

/-- `EnvironmentLoader.load`: one entry per mapped path whose variable is
set, values entering as raw strings. -/
def environmentLoaderLoad (inverted : List (String × String))
    (env : String → Option String) : List (String × JSValue) :=
  mergeInto []
    (inverted.filterMap (fun kv => (env kv.2).map (fun s => (kv.1, JSValue.vStr s))))

/-- `loadFromEnvironment`: build the environment layer and merge it on top
(environment always wins). -/
def loadFromEnvironment (ps : ParsedSchema) (env : String → Option String)
    (store : Store) : Store :=
  mergeInto store (environmentLoaderLoad (invertMappings ps.envMappings) env)

/-- The "missing required property" record of the validate pass. -/
def requiredErr (p : String) : Err :=
  .mk .validation ("Required property '" ++ p ++ "' is missing and has no default value")
    p none []

/-- The special case of the validate pass for a `json`-format property
whose current value is (reference-)identical to its declared object
default: accepted as already parsed. -/
def jsonDefaultSkip (sp : SchemaProp) (raw : JSValue) : Bool :=
  match sp.format with
  | .fJson =>
    match sp.default with
    | some d => decide (raw = d) && (jsTypeof raw == "object")
    | none => false
  | _ => false

/-- One iteration of the validate-and-convert loop: the store after the
property's in-place update, plus the error recorded for it, if any. -/
def vacStep (p : String) (sp : SchemaProp) (store : Store) : Store × Option Err :=
  match mapGet store p with
  | none =>
    if sp.default.isNone then (store, some (requiredErr p)) else (store, none)
  | some raw =>
    if jsonDefaultSkip sp raw then (mapSet store p raw, none)
    else
      match convertValue raw sp.format p with
      | .ok c => (mapSet store p c, none)
      | .error e => (store, some e)

/-- The per-property loop of `validateAndConvertConfiguration`: walk the
schema's properties in order, converting in place and collecting errors
without aborting. -/
def vacLoop : List (String × SchemaProp) → Store → List Err → Store × List Err
  | [], store, errs => (store, errs)
  | (p, sp) :: tl, store, errs =>
    vacLoop tl (vacStep p sp store).1 (errs ++ (vacStep p sp store).2.toList)

/-- The aggregate raised when two or more property errors were recorded. -/
def aggregateErr (errs : List Err) : Err :=
  .mk .validation
    ("Configuration validation failed:\n" ++
      joinSep "\n" (errs.map (fun e => "- " ++ e.property ++ ": " ++ e.message)))
    "configuration" none errs

/-- `validateAndConvertConfiguration`: the loop, then the one/many/none
error policy.  Returns the thrown-or-ok outcome together with the store as
the in-place mutation left it (identical to the ok value on success). -/
def validateAndConvertConfiguration (ps : ParsedSchema) (store : Store) :
    Except Err Store × Store :=
  match vacLoop ps.properties store [] with
  | (st, []) => (.ok st, st)
  | (st, [e]) => (.error e, st)
  | (st, errs) => (.error (aggregateErr errs), st)

/-- Construction (`loadConfiguration`): defaults, optional file layer
(already flattened by the file loader), environment layer, then the
validate-and-convert pass. -/
def loadConfiguration (ps : ParsedSchema) (file : Option (List (String × JSValue)))
    (env : String → Option String) : Except Err Store :=
  let st0 := applyDefaults ps
  let st1 := match file with
    | some fd => mergeInto st0 fd
    | none => st0
  let st2 := loadFromEnvironment ps env st1
  (validateAndConvertConfiguration ps st2).1

/-- `load(filePath)`: the file loader's outcome enters as an `Except`; on
its failure nothing has been merged.  The second component is the store
the mutation leaves behind, whether or not the call throws. -/
def loadOp (ps : ParsedSchema) (env : String → Option String) (store : Store)
    (fileResult : Except Err (List (String × JSValue))) : Except Err Store × Store :=
  match fileResult with
  | .error e => (.error e, store)
  | .ok fd =>
    validateAndConvertConfiguration ps (loadFromEnvironment ps env (mergeInto store fd))

/-- The sequential loader walk of one `asyncLoad` call: merge each
loader's data then re-apply the environment layer; stop at the first
rejection (later loaders never run). -/
def asyncMergeLoop (ps : ParsedSchema) (env : String → Option String) (store : Store) :
    List (Except Err (List (String × JSValue))) → Option Err × Store
  | [] => (none, store)
  | .error e :: _ => (some e, store)
  | .ok fd :: tl =>
    asyncMergeLoop ps env (loadFromEnvironment ps env (mergeInto store fd)) tl

/-- The queued body of `asyncLoad`: all loaders, then one validate pass.
Second component is the store left behind. -/
def asyncLoadOp (ps : ParsedSchema) (env : String → Option String) (store : Store)
    (loaders : List (Except Err (List (String × JSValue)))) : Except Err Store × Store :=
  match asyncMergeLoop ps env store loaders with
  | (some e, st) => (.error e, st)
  | (none, st) => validateAndConvertConfiguration ps st

/-! ## The read path -/

/-- `setNestedValue`: write `value` at `path` inside a plain object tree,
creating (or overwriting non-object) intermediate containers; empty path
segments are skipped like the source's falsy-part guard.  JS can hang
properties off an array object mid-path; the tree model replaces such an
intermediate with a fresh object instead. -/
def objSetPath (obj : List (String × JSValue)) : List String → JSValue →
    List (String × JSValue)
  | [], _ => obj
  | [k], v => if k = "" then obj else mapSet obj k v
  | k :: rest, v =>
    if k = "" then objSetPath obj rest v
    else
      let child := match mapGet obj k with
        | some (.vObj fs) => fs
        | _ => []
      mapSet obj k (.vObj (objSetPath child rest v))

/-- `buildNestedObject`: collect every stored key under `parentKey.` into a
synthesized object (the dynamic proxy of the source is modelled as the
plain object it wraps; the cache, cleared on every mutation, is a
transparent read-path optimization and is not modelled). -/
def buildNestedObject (store : Store) (parentKey : String) : Option JSValue :=
  let pre := parentKey ++ "."
  let nested := store.foldl (fun acc kv =>
    if kv.1.startsWith pre then
      objSetPath acc ((kv.1.drop pre.length).splitOn ".") kv.2
    else acc) []
  if store.any (fun kv => kv.1.startsWith pre) then some (.vObj nested) else none

/-- The "not defined in the configuration" error of the dot-notation walk. -/
def notDefinedErr (path : String) : Err :=
  .mk .validation ("Property '" ++ path ++ "' is not defined in the configuration")
    path none []

/-- The final navigation of `getNestedValue` through the assembled object. -/
def navigateParts (path : String) : JSValue → List String → Except Err JSValue
  | v, [] => .ok v
  | v, part :: rest =>
    match v with
    | .vObj fs =>
      match mapGet fs part with
      | some v2 => navigateParts path v2 rest
      | none => .error (notDefinedErr path)
    | _ => .error (notDefinedErr path)

/-- `getNestedValue`: exact flat key, else assemble the value from every
stored prefix of the path and navigate into it. -/
def getNestedValue (store : Store) (path : String) : Except Err JSValue :=
  let parts := path.splitOn "."
  match mapGet store path with
  | some v => .ok v
  | none =>
    let built := (List.range parts.length).foldl
      (fun (acc : List (String × JSValue) × Bool) i =>
        match mapGet store (joinSep "." (parts.take (i + 1))) with
        | some v => (objSetPath acc.1 (parts.take (i + 1)) v, true)
        | none => acc) ([], false)
    if built.2 then navigateParts path (.vObj built.1) parts
    else .error (notDefinedErr path)

/-- `throwMissingValueError` (schema knows the path, store has no value):
suggests the bound variable, or the upper-cased key when the binding is
absent or empty. -/
def missingValueErr (key : String) (sp : SchemaProp) : Err :=
  let envVar := match sp.env with
    | some e => if e = "" then jsUpper key else e
    | none => jsUpper key
  .mk .validation
    ("Property '" ++ key ++ "' is not set and has no default value. " ++
     "Try setting the environment variable '" ++ envVar ++
     "' or providing a default value in the schema.")
    key none []

/-- `generatePropertySuggestions`: case-insensitive substring matches
either way round, first three. -/
def generatePropertySuggestions (key : String) (avail : List String) : List String :=
  (avail.filter (fun p =>
    decide ((jsLower key).data <:+: (jsLower p).data) ||
    decide ((jsLower p).data <:+: (jsLower key).data))).take 3

/-- `throwUndefinedPropertyError`: unknown path, with suggestions and up to
five known paths. -/
def undefinedPropertyErr (key : String) (avail : List String) : Err :=
  let suggestions := generatePropertySuggestions key avail
  let suggestionText :=
    if suggestions.isEmpty then ""
    else " Did you mean: " ++ joinSep ", " (suggestions.map (fun s => "'" ++ s ++ "'")) ++ "?"
  let availableText :=
    joinSep ", " ((avail.take 5).map (fun p => "'" ++ p ++ "'")) ++
      (if avail.length > 5 then "..." else "")
  .mk .validation
    ("Property '" ++ key ++ "' is not defined in the schema." ++ suggestionText ++
     " Available properties: " ++ availableText ++ ".")
    key none []

/-- `handlePropertyNotFound`. -/
def handlePropertyNotFound (ps : ParsedSchema) (key : String) : Err :=
  match mapGet ps.properties key with
  | some sp => missingValueErr key sp
  | none => undefinedPropertyErr key (ps.properties.map (fun kv => kv.1))

/-- `getSingleValue` (the string overload of `get`). -/
def getSingleValue (ps : ParsedSchema) (store : Store) (key : String) :
    Except Err JSValue :=
  match mapGet store key with
  | some v => .ok v
  | none =>
    match buildNestedObject store key with
    | some obj => .ok obj
    | none =>
      if key.contains '.' then getNestedValue store key
      else .error (handlePropertyNotFound ps key)

/-- `tryGet`: primary, then (only for the engine's own error class)
fallback, then the both-failed aggregate. -/
def tryGet (ps : ParsedSchema) (store : Store) (primaryKey fallbackKey : String) :
    Except Err JSValue :=
  match getSingleValue ps store primaryKey with
  | .ok v => .ok v
  | .error e =>
    if e.kind = .validation then
      match getSingleValue ps store fallbackKey with
      | .ok v => .ok v
      | .error fe =>
        .error (.mk .validation
          ("Both primary key '" ++ primaryKey ++ "' and fallback key '" ++ fallbackKey ++
           "' failed. Primary error: " ++ e.message ++ ". Fallback error: " ++
           (if fe.kind = .validation then fe.message else "Unknown error") ++ ".")
          primaryKey none [])
    else .error e

/-! ## The env-file writer -/

/-- `formatEnvValue`: null renders empty, quoted strings escape inner
double quotes, everything else serializes structurally. -/
def formatEnvValue : JSValue → String
  | .vNull => ""
  | .vStr s =>
    if s.data.contains ' ' || s.data.contains '"' || s.data.contains '\'' then
      "\"" ++ String.mk (s.data.flatMap (fun c => if c = '"' then ['\\', '"'] else [c])) ++ "\""
    else s
  | v => jsonStringify v

/-- `UPPER_SNAKE` key derivation: upper-case, then dots to underscores. -/
def envVarNameOf (k : String) : String :=
  String.mk ((k.data.map Char.toUpper).map (fun c => if c = '.' then '_' else c))

/-- The recursive flattening of `formatAsEnvFile`, producing one line per
leaf in traversal order (arrays and null are leaves). -/
def envLines : List (String × JSValue) → String → List String
  | [], _ => []
  | (k, v) :: tl, pre =>
    let envKey := if pre = "" then k else pre ++ "." ++ k
    (match v with
     | .vObj fs => envLines fs envKey
     | _ => [envVarNameOf envKey ++ "=" ++ formatEnvValue v]) ++ envLines tl pre

/-- The default JS `Array.prototype.sort` comparison on strings
(lexicographic by code unit; all output here is ASCII, where code units
and code points agree), as a boolean relation on character lists. -/
def charsLe : List Char → List Char → Bool
  | [], _ => true
  | _ :: _, [] => false
  | a :: x, b :: y => if a = b then charsLe x y else decide (a < b)

def strLe (a b : String) : Bool := charsLe a.data b.data

/-- Stable insertion into a sorted list (the sort below models
`Array.prototype.sort`, a stable sort under the default string
comparison; any stable comparison sort computes the same list). -/
def insertSorted {α : Type} (le : α → α → Bool) (x : α) : List α → List α
  | [] => [x]
  | y :: tl => if le x y then x :: y :: tl else y :: insertSorted le x tl

/-- Stable sort of the emitted lines. -/
def sortLines {α : Type} (le : α → α → Bool) : List α → List α
  | [] => []
  | x :: tl => insertSorted le x (sortLines le tl)

/-- `formatAsEnvFile`: flatten, sort the whole lines, join. -/
def formatAsEnvFile (data : List (String × JSValue)) : String :=
  joinSep "\n" (sortLines strLe (envLines data ""))

/-- `getAllConfigurationData`: the flat store exploded back into a nested
object. -/
def getAllConfigurationData (store : Store) : List (String × JSValue) :=
  store.foldl (fun acc kv =>
    if kv.1.contains '.' then objSetPath acc (kv.1.splitOn ".") kv.2
    else mapSet acc kv.1 kv.2) []

/-! ## The heap model for object identity and cycles

Tree values cannot express the object identity and cyclic object graphs
`detectCircularReferences` exists for, so the detector is embedded over an
explicit heap: slot values are primitives or addresses, and a finite
table maps addresses to object/array nodes. -/

/-- A primitive slot value. -/
inductive GPrim where
  | pNull
  | pBool (b : Bool)
  | pNum (n : Int)
  | pStr (s : String)
deriving DecidableEq, Repr

/-- A slot: primitive, or reference to a heap node. -/
inductive GVal where
  | gPrim (p : GPrim)
  | gRef (a : Nat)
deriving DecidableEq, Repr

/-- A heap node. -/
inductive GNode where
  | gObj (fields : List (String × GVal))
  | gArr (elems : List GVal)
deriving Repr

/-- The address → node table. -/
abbrev Heap := List (Nat × GNode)

def heapGet (h : Heap) (a : Nat) : Option GNode :=
  (h.find? (fun kv => kv.1 == a)).map (fun kv => kv.2)

/-- How many distinct table addresses are not yet on the visited path
(the termination measure of the detector: each descent marks one more). -/
def unvisited (h : Heap) (visited : List Nat) : Nat :=
  ((h.map (fun kv => kv.1)).toFinset \ visited.toFinset).card

theorem unvisited_cons_lt (h : Heap) (visited : List Nat) (a : Nat)
    (ha : a ∈ h.map (fun kv => kv.1)) (hv : a ∉ visited) :
    unvisited h (a :: visited) < unvisited h visited := by
  unfold unvisited
  apply Finset.card_lt_card
  rw [List.toFinset_cons]
  have hsub : (h.map (fun kv => kv.1)).toFinset \ insert a visited.toFinset ⊆
      (h.map (fun kv => kv.1)).toFinset \ visited.toFinset :=
    Finset.sdiff_subset_sdiff (Finset.Subset.refl _) (Finset.subset_insert a _)
  rw [Finset.ssubset_iff_of_subset hsub]
  refine ⟨a, ?_, ?_⟩
  · rw [Finset.mem_sdiff, List.mem_toFinset, List.mem_toFinset]
    exact ⟨ha, hv⟩
  · rw [Finset.mem_sdiff]
    intro hcon
    exact hcon.2 (Finset.mem_insert_self a _)

theorem heapGet_mem_keys {h : Heap} {a : Nat} {node : GNode}
    (hg : heapGet h a = some node) : a ∈ h.map (fun kv => kv.1) := by
  unfold heapGet at hg
  cases hfind : (h.find? (fun kv => kv.1 == a)) with
  | none => rw [hfind] at hg; cases hg
  | some kv =>
    have hm := List.mem_of_find?_eq_some hfind
    have hp := List.find?_some hfind
    simp only [beq_iff_eq] at hp
    subst hp
    exact List.mem_map_of_mem _ hm

/-- The message of the circular-reference `ParseError` (path segments
joined with dots; the clause is omitted at the root, where the path is
empty). -/
def circularMessage (path : List String) : String :=
  "Circular reference detected in object" ++
    (if path.isEmpty then "" else " at path: " ++ joinSep "." path) ++
    ". Cannot convert to string."

mutual

/-- `detectCircularReferences` on one slot: primitives return, a reference
already on the visited path throws (the error payload is the path the
source passes to the message), otherwise the node is visited with the
reference pushed onto the path — and popped afterwards, which the
call-by-value `a :: visited` argument models exactly.  Enumerable symbol
keys are outside the model. -/
def detectVal (h : Heap) (visited : List Nat) (path : List String) :
    GVal → Except (List String) Unit
  | .gPrim _ => .ok ()
  | .gRef a =>
    if ha : a ∈ visited then .error path
    else
      match hg : heapGet h a with
      | some node => detectNode h (a :: visited) path node
      | none => .ok ()
termination_by v => (unvisited h visited, 0, 0)
decreasing_by
  have hlt := unvisited_cons_lt h visited a (heapGet_mem_keys hg) ha
  decreasing_tactic

/-- Walk a node's slots. -/
def detectNode (h : Heap) (visited : List Nat) (path : List String) :
    GNode → Except (List String) Unit
  | .gObj fields => detectFields h visited path fields
  | .gArr elems => detectElems h visited path 0 elems
termination_by node => (unvisited h visited, 1, sizeOf node)

/-- Walk object members, extending the path with the key. -/
def detectFields (h : Heap) (visited : List Nat) (path : List String) :
    List (String × GVal) → Except (List String) Unit
  | [] => .ok ()
  | (k, v) :: tl =>
    match detectVal h visited (path ++ [k]) v with
    | .ok () => detectFields h visited path tl
    | .error e => .error e
termination_by fields => (unvisited h visited, 0, 1 + sizeOf fields)

/-- Walk array elements, extending the path with `[i]`. -/
def detectElems (h : Heap) (visited : List Nat) (path : List String) (i : Nat) :
    List GVal → Except (List String) Unit
  | [] => .ok ()
  | v :: tl =>
    match detectVal h visited (path ++ ["[" ++ String.mk (natChars i) ++ "]"]) v with
    | .ok () => detectElems h visited path (i + 1) tl
    | .error e => .error e
termination_by elems => (unvisited h visited, 0, 1 + sizeOf elems)

end

mutual

/-- Read an (already cycle-checked) graph value back as a tree, for the
serialization step after the detector succeeds; the fuel, one unit per
descent, exceeds any acyclic depth when seeded with the table size. -/
def gToTree (h : Heap) : Nat → GVal → JSValue
  | _, .gPrim .pNull => .vNull
  | _, .gPrim (.pBool b) => .vBool b
  | _, .gPrim (.pNum n) => .vNum n
  | _, .gPrim (.pStr s) => .vStr s
  | 0, .gRef _ => .vNull
  | fuel + 1, .gRef a =>
    match heapGet h a with
    | some (.gObj fields) => .vObj (gToTreeFields h fuel fields)
    | some (.gArr elems) => .vArr (gToTreeElems h fuel elems)
    | none => .vNull
termination_by fuel _ => (fuel, 0)

def gToTreeFields (h : Heap) (fuel : Nat) :
    List (String × GVal) → List (String × JSValue)
  | [] => []
  | (k, v) :: tl => (k, gToTree h fuel v) :: gToTreeFields h fuel tl
termination_by fields => (fuel, 1 + sizeOf fields)

def gToTreeElems (h : Heap) (fuel : Nat) : List GVal → List JSValue
  | [] => []
  | v :: tl => gToTree h fuel v :: gToTreeElems h fuel tl
termination_by elems => (fuel, 1 + sizeOf elems)

end

/-- `convertToString` over the heap embedding: the object branch runs the
circular-reference detector before serializing, and surfaces its
`ParseError` when a cycle is found. -/
def convertToStringG (h : Heap) (value : GVal) (property : String) :
    Except Err String :=
  match value with
  | .gPrim (.pStr s) => .ok s
  | .gPrim (.pNum n) => .ok (intString n)
  | .gPrim (.pBool b) => .ok (if b then "true" else "false")
  | .gPrim .pNull => .error (.mk .parse "Cannot convert null value to a string."
      property none [])
  | .gRef a =>
    match detectVal h [] [] (.gRef a) with
    | .ok () => .ok (jsonStringify (gToTree h (h.length + 1) (.gRef a)))
    | .error path => .error (.mk .parse (circularMessage path) property none [])

/-- `convertValue` over the heap embedding, for the `string` format (the
only format whose claim needs object identity). -/
def convertValueStringG (h : Heap) (value : GVal) (property : String) :
    Except Err JSValue :=
  if value = .gPrim .pNull then .ok .vNull
  else (convertToStringG h value property).map .vStr

/-- The addresses a node references through its property / array-index
slots. -/
def nodeRefs : GNode → List Nat
  | .gObj fields => fields.filterMap (fun kv =>
      match kv.2 with
      | .gRef a => some a
      | _ => none)
  | .gArr elems => elems.filterMap (fun v =>
      match v with
      | .gRef a => some a
      | _ => none)

/-- One reference edge of the object graph. -/
def HEdge (h : Heap) (a b : Nat) : Prop :=
  ∃ node, heapGet h a = some node ∧ b ∈ nodeRefs node

/-- `b` is an object reachable from itself through property or array-index
edges, starting from an object reachable from `a`. -/
def HCycleFrom (h : Heap) (a : Nat) : Prop :=
  ∃ b, Relation.ReflTransGen (HEdge h) a b ∧ Relation.TransGen (HEdge h) b b

theorem detectVal_ok_notMem {h : Heap} {visited : List Nat} {path : List String}
    {a : Nat} (hok : detectVal h visited path (.gRef a) = .ok ()) : a ∉ visited := by
  intro hmem
  simp [detectVal, hmem] at hok

theorem detectVal_ok_node {h : Heap} {visited : List Nat} {path : List String}
    {a : Nat} {node : GNode} (hg : heapGet h a = some node)
    (hok : detectVal h visited path (.gRef a) = .ok ()) :
    detectNode h (a :: visited) path node = .ok () := by
  have ha := detectVal_ok_notMem hok
  simp only [detectVal, dif_neg ha] at hok
  rw [hg] at hok
  exact hok

theorem detectFields_ok {h : Heap} {visited : List Nat} {path : List String} :
    ∀ {fields : List (String × GVal)},
      detectFields h visited path fields = .ok () →
      ∀ kv ∈ fields, detectVal h visited (path ++ [kv.1]) kv.2 = .ok ()
  | [], _, kv, hkv => absurd hkv (List.not_mem_nil kv)
  | (k, v) :: tl, hok, kv, hkv => by
    simp only [detectFields] at hok
    cases hh : detectVal h visited (path ++ [k]) v with
    | ok u =>
      obtain ⟨⟩ := u
      rw [hh] at hok
      cases hkv with
      | head => exact hh
      | tail _ htl => exact detectFields_ok hok kv htl
    | error e => rw [hh] at hok; cases hok

theorem detectElems_ok {h : Heap} {visited : List Nat} {path : List String} :
    ∀ {elems : List GVal} {i : Nat},
      detectElems h visited path i elems = .ok () →
      ∀ v ∈ elems, ∃ p2, detectVal h visited p2 v = .ok ()
  | [], _, _, v, hv => absurd hv (List.not_mem_nil v)
  | w :: tl, i, hok, v, hv => by
    simp only [detectElems] at hok
    cases hh : detectVal h visited (path ++ ["[" ++ String.mk (natChars i) ++ "]"]) w with
    | ok u =>
      obtain ⟨⟩ := u
      rw [hh] at hok
      cases hv with
      | head => exact ⟨_, hh⟩
      | tail _ htl => exact detectElems_ok hok v htl
    | error e => rw [hh] at hok; cases hok

theorem detectNode_ok_refs {h : Heap} {visited : List Nat} {path : List String}
    {node : GNode} (hok : detectNode h visited path node = .ok ()) :
    ∀ b ∈ nodeRefs node, ∃ p2, detectVal h visited p2 (.gRef b) = .ok () := by
  intro b hb
  cases node with
  | gObj fields =>
    simp only [nodeRefs, List.mem_filterMap] at hb
    obtain ⟨kv, hkv, hform⟩ := hb
    have hv : kv.2 = .gRef b := by
      cases hkv2 : kv.2 <;> rw [hkv2] at hform <;> simp at hform
      rw [hform]
    have := detectFields_ok (by simpa [detectNode] using hok) kv hkv
    rw [hv] at this
    exact ⟨_, this⟩
  | gArr elems =>
    simp only [nodeRefs, List.mem_filterMap] at hb
    obtain ⟨w, hw, hform⟩ := hb
    have hv : w = .gRef b := by
      cases hw2 : w <;> rw [hw2] at hform <;> simp at hform
      rw [hform]
    obtain ⟨p2, hp2⟩ := detectElems_ok (by simpa [detectNode] using hok) w hw
    rw [hv] at hp2
    exact ⟨p2, hp2⟩

/-- A successful detection at `a` hands a successful detection to every
edge target, with `a` added to the visited path. -/
theorem detect_edge_ok {h : Heap} {visited : List Nat} {path : List String}
    {a b : Nat} (hok : detectVal h visited path (.gRef a) = .ok ())
    (hedge : HEdge h a b) :
    ∃ p2, detectVal h (a :: visited) p2 (.gRef b) = .ok () := by
  obtain ⟨node, hg, hb⟩ := hedge
  exact detectNode_ok_refs (detectVal_ok_node hg hok) b hb

/-- Detection success propagates along every reachability path. -/
theorem detect_reach_ok {h : Heap} {a : Nat} {visited : List Nat} {path : List String}
    (hok : detectVal h visited path (.gRef a) = .ok ()) {b : Nat}
    (hreach : Relation.ReflTransGen (HEdge h) a b) :
    ∃ visited2 path2, detectVal h visited2 path2 (.gRef b) = .ok () := by
  induction hreach with
  | refl => exact ⟨visited, path, hok⟩
  | tail hmid hedge ih =>
    obtain ⟨v2, p2, hok2⟩ := ih
    obtain ⟨p3, hok3⟩ := detect_edge_ok hok2 hedge
    exact ⟨_, p3, hok3⟩

/-- A successful detection at `a` rules out any nonempty edge path from
`a` back into `a` or its visited ancestors. -/
theorem detect_ok_no_return {h : Heap} {b : Nat} :
    ∀ {a : Nat}, Relation.TransGen (HEdge h) a b →
      ∀ {visited : List Nat} {path : List String},
        detectVal h visited path (.gRef a) = .ok () → b ∉ a :: visited := by
  intro a htrans
  induction htrans using Relation.TransGen.head_induction_on with
  | base hedge =>
    intro visited path hok
    obtain ⟨p2, hok2⟩ := detect_edge_ok hok hedge
    exact detectVal_ok_notMem hok2
  | ih hedge htrans2 ih =>
    rename_i a c
    intro visited path hok
    obtain ⟨p2, hok2⟩ := detect_edge_ok hok hedge
    have hnot := ih hok2
    intro hmem
    exact hnot (List.mem_cons_of_mem _ hmem)

/-- Completeness of the detector: a cycle reachable from the root forces
an error. -/
theorem detect_cycle_error {h : Heap} {r : Nat} (hcyc : HCycleFrom h r) :
    ∃ e, detectVal h [] [] (.gRef r) = .error e := by
  cases hres : detectVal h [] [] (.gRef r) with
  | error e => exact ⟨e, rfl⟩
  | ok u =>
    obtain ⟨⟩ := u
    obtain ⟨b, hreach, htrans⟩ := hcyc
    obtain ⟨v2, p2, hok2⟩ := detect_reach_ok hres hreach
    have := detect_ok_no_return htrans hok2
    exact absurd (List.mem_cons_self b v2) this

mutual

/-- An error of the slot walk extends the call's path; it equals the
call's path only for the visited-reference throw itself. -/
theorem detect_err_path_val : ∀ (h : Heap) (visited : List Nat) (path : List String)
    (v : GVal) (e : List String), detectVal h visited path v = .error e →
    (∃ tail, e = path ++ tail) ∧
      (e = path → ∃ a, v = .gRef a ∧ a ∈ visited)
  | h, visited, path, .gPrim p, e, herr => by simp [detectVal] at herr
  | h, visited, path, .gRef a, e, herr => by
    by_cases ha : a ∈ visited
    · simp only [detectVal, dif_pos ha] at herr
      cases herr
      exact ⟨⟨[], by simp⟩, fun _ => ⟨a, rfl, ha⟩⟩
    · simp only [detectVal, dif_neg ha] at herr
      cases hg : heapGet h a with
      | none => rw [hg] at herr; cases herr
      | some node =>
        rw [hg] at herr
        obtain ⟨⟨tail, htail, hne⟩⟩ := detect_err_path_node h (a :: visited) path node e herr
        refine ⟨⟨tail, htail⟩, fun hep => ?_⟩
        have : tail = [] := by
          have := hep ▸ htail
          simpa using this.symm
        exact absurd this hne
termination_by h visited _ v _ _ => (unvisited h visited, 0, 0)
decreasing_by
  have hlt := unvisited_cons_lt h visited a (heapGet_mem_keys hg) ha
  decreasing_tactic

/-- An error of the node walk strictly extends the path. -/
theorem detect_err_path_node : ∀ (h : Heap) (visited : List Nat) (path : List String)
    (node : GNode) (e : List String), detectNode h visited path node = .error e →
    Nonempty (∃ tail, e = path ++ tail ∧ tail ≠ [])
  | h, visited, path, .gObj fields, e, herr =>
    detect_err_path_fields h visited path fields e (by simpa [detectNode] using herr)
  | h, visited, path, .gArr elems, e, herr =>
    detect_err_path_elems h visited path 0 elems e (by simpa [detectNode] using herr)
termination_by h visited _ node _ _ => (unvisited h visited, 1, sizeOf node)

theorem detect_err_path_fields : ∀ (h : Heap) (visited : List Nat) (path : List String)
    (fields : List (String × GVal)) (e : List String),
    detectFields h visited path fields = .error e →
    Nonempty (∃ tail, e = path ++ tail ∧ tail ≠ [])
  | h, visited, path, [], e, herr => by simp [detectFields] at herr
  | h, visited, path, (k, v) :: tl, e, herr => by
    simp only [detectFields] at herr
    cases hh : detectVal h visited (path ++ [k]) v with
    | ok u =>
      obtain ⟨⟩ := u
      rw [hh] at herr
      exact detect_err_path_fields h visited path tl e herr
    | error e2 =>
      rw [hh] at herr
      cases herr
      obtain ⟨⟨t2, ht2⟩, _⟩ := detect_err_path_val h visited (path ++ [k]) v _ hh
      exact ⟨⟨k :: t2, by simpa using ht2, by simp⟩⟩
termination_by h visited _ fields _ => (unvisited h visited, 0, 1 + sizeOf fields)

theorem detect_err_path_elems : ∀ (h : Heap) (visited : List Nat) (path : List String)
    (i : Nat) (elems : List GVal) (e : List String),
    detectElems h visited path i elems = .error e →
    Nonempty (∃ tail, e = path ++ tail ∧ tail ≠ [])
  | h, visited, path, i, [], e, herr => by simp [detectElems] at herr
  | h, visited, path, i, v :: tl, e, herr => by
    simp only [detectElems] at herr
    cases hh : detectVal h visited (path ++ ["[" ++ String.mk (natChars i) ++ "]"]) v with
    | ok u =>
      obtain ⟨⟩ := u
      rw [hh] at herr
      exact detect_err_path_elems h visited path (i + 1) tl e herr
    | error e2 =>
      rw [hh] at herr
      cases herr
      obtain ⟨⟨t2, ht2⟩, _⟩ := detect_err_path_val h visited _ v _ hh
      exact ⟨⟨("[" ++ String.mk (natChars i) ++ "]") :: t2, by simpa using ht2, by simp⟩⟩
termination_by h visited _ _ elems _ => (unvisited h visited, 0, 1 + sizeOf elems)

end

/-- The path of a root-level detection error is never empty. -/
theorem detect_root_err_ne_nil {h : Heap} {r : Nat} {e : List String}
    (herr : detectVal h [] [] (.gRef r) = .error e) : e ≠ [] := by
  obtain ⟨⟨tail, htail⟩, hself⟩ := detect_err_path_val h [] [] (.gRef r) e herr
  intro hnil
  obtain ⟨a, _, hmem⟩ := hself hnil
  exact absurd hmem (List.not_mem_nil a)

/-! ## Map and merge lemmas -/

theorem mapGet_nil {α : Type} (k : String) : mapGet ([] : List (String × α)) k = none := rfl

theorem mapGet_cons {α : Type} (kv : String × α) (tl : List (String × α)) (k : String) :
    mapGet (kv :: tl) k = if kv.1 == k then some kv.2 else mapGet tl k := by
  unfold mapGet
  rw [List.find?_cons]
  by_cases h : kv.1 == k
  · rw [h]; simp
  · rw [Bool.not_eq_true] at h
    rw [h]
    simp

theorem mapGet_eq_none {α : Type} {m : List (String × α)} {k : String} :
    mapGet m k = none ↔ ∀ kv ∈ m, kv.1 ≠ k := by
  induction m with
  | nil => simp [mapGet_nil]
  | cons kv tl ih =>
    rw [mapGet_cons]
    by_cases h : kv.1 == k
    · have hk : kv.1 = k := by simpa using h
      simp [h, hk]
    · have hk : kv.1 ≠ k := by simpa using h
      simp [h, hk, ih]

theorem mapGet_mem {α : Type} {m : List (String × α)} {k : String} {v : α}
    (hg : mapGet m k = some v) : (k, v) ∈ m := by
  induction m with
  | nil => cases hg
  | cons kv tl ih =>
    rw [mapGet_cons] at hg
    by_cases h : kv.1 == k
    · rw [if_pos h] at hg
      have hk : kv.1 = k := by simpa using h
      obtain ⟨k0, v0⟩ := kv
      simp only [Option.some.injEq] at hg
      simp only at hk
      rw [← hk, ← hg] at *
      exact List.mem_cons_self ..
    · rw [if_neg h] at hg
      exact List.mem_cons_of_mem _ (ih hg)

theorem mapGet_of_mem_nodup {α : Type} {m : List (String × α)} {k : String} {v : α}
    (hmem : (k, v) ∈ m) (hnd : (m.map (fun kv => kv.1)).Nodup) :
    mapGet m k = some v := by
  induction m with
  | nil => cases hmem
  | cons kv tl ih =>
    rw [List.map_cons, List.nodup_cons] at hnd
    rw [mapGet_cons]
    cases hmem with
    | head => simp
    | tail _ htl =>
      have hk : kv.1 ≠ k := by
        intro hrfl
        exact hnd.1 (hrfl ▸ List.mem_map_of_mem (fun kv => kv.1) htl)
      rw [if_neg (by simpa using hk)]
      exact ih htl hnd.2

/-- The single lookup law for `mapSet`. -/
theorem mapGet_mapSet {α : Type} (m : List (String × α)) (k k2 : String) (v : α) :
    mapGet (mapSet m k v) k2 = if k2 = k then some v else mapGet m k2 := by
  induction m with
  | nil =>
    show mapGet [(k, v)] k2 = _
    rw [mapGet_cons]
    by_cases h : k2 = k
    · simp [h]
    · have : (k == k2) = false := by simpa using fun hh => h hh.symm
      rw [this, if_neg h]
      rfl
  | cons kv tl ih =>
    by_cases hk : kv.1 == k
    · show mapGet (if kv.1 == k then (k, v) :: tl else kv :: mapSet tl k v) k2 = _
      rw [if_pos hk, mapGet_cons]
      have hkk : kv.1 = k := by simpa using hk
      by_cases h : k2 = k
      · simp [h]
      · have h1 : (k == k2) = false := by simpa using fun hh => h hh.symm
        rw [h1, if_neg h, mapGet_cons, hkk, h1]
        simp
    · show mapGet (if kv.1 == k then (k, v) :: tl else kv :: mapSet tl k v) k2 = _
      rw [if_neg hk, mapGet_cons, ih, mapGet_cons]
      by_cases h2 : kv.1 == k2
      · have : k2 ≠ k := by
          intro hrfl
          exact hk (by simpa [hrfl] using h2)
        rw [h2] at *
        simp [if_neg this]
      · rw [Bool.not_eq_true] at h2
        rw [h2]
        simp

/-- New keys only: `mapSet` keys are the old keys plus possibly `k`. -/
theorem mapSet_keys_sub {α : Type} (m : List (String × α)) (k : String) (v : α) :
    ∀ x ∈ (mapSet m k v).map (fun kv => kv.1), x ∈ m.map (fun kv => kv.1) ∨ x = k := by
  induction m with
  | nil =>
    intro x hx
    simp only [mapSet, List.map_cons, List.map_nil, List.mem_singleton] at hx
    exact Or.inr hx
  | cons kv tl ih =>
    intro x hx
    by_cases hk : kv.1 == k
    · rw [show mapSet (kv :: tl) k v = (k, v) :: tl from by simp [mapSet, hk]] at hx
      simp only [List.map_cons, List.mem_cons] at hx
      cases hx with
      | inl h => exact Or.inr h
      | inr h => exact Or.inl (by simp [h])
    · rw [show mapSet (kv :: tl) k v = kv :: mapSet tl k v from by simp [mapSet, hk]] at hx
      simp only [List.map_cons, List.mem_cons] at hx
      cases hx with
      | inl h => exact Or.inl (by simp [h])
      | inr h =>
        cases ih x h with
        | inl h2 => exact Or.inl (by simp [h2])
        | inr h2 => exact Or.inr h2

/-- `mapSet` preserves key uniqueness. -/
theorem mapSet_nodup {α : Type} {m : List (String × α)} (k : String) (v : α)
    (hnd : (m.map (fun kv => kv.1)).Nodup) :
    ((mapSet m k v).map (fun kv => kv.1)).Nodup := by
  induction m with
  | nil => simp [mapSet]
  | cons kv tl ih =>
    rw [List.map_cons, List.nodup_cons] at hnd
    by_cases hk : kv.1 == k
    · have hkk : kv.1 = k := by simpa using hk
      rw [show mapSet (kv :: tl) k v = (k, v) :: tl from by simp [mapSet, hk]]
      rw [List.map_cons, List.nodup_cons]
      exact ⟨by rw [← hkk]; exact hnd.1, hnd.2⟩
    · rw [show mapSet (kv :: tl) k v = kv :: mapSet tl k v from by simp [mapSet, hk]]
      rw [List.map_cons, List.nodup_cons]
      refine ⟨?_, ih hnd.2⟩
      intro hmem
      cases mapSet_keys_sub tl k v kv.1 hmem with
      | inl h => exact hnd.1 h
      | inr h => exact hk (by simpa using h)

/-- Setting a key to the value it already holds is the identity. -/
theorem mapSet_self {α : Type} {m : List (String × α)} {k : String} {v : α}
    (hg : mapGet m k = some v) : mapSet m k v = m := by
  induction m with
  | nil => cases hg
  | cons kv tl ih =>
    rw [mapGet_cons] at hg
    by_cases hk : kv.1 == k
    · rw [if_pos hk] at hg
      have hkk : kv.1 = k := by simpa using hk
      simp only [Option.some.injEq] at hg
      rw [show mapSet (kv :: tl) k v = (k, v) :: tl from by simp [mapSet, hk]]
      obtain ⟨k0, v0⟩ := kv
      simp only at hkk hg
      rw [hkk, hg]
    · rw [if_neg hk] at hg
      rw [show mapSet (kv :: tl) k v = kv :: mapSet tl k v from by simp [mapSet, hk]]
      rw [ih hg]

theorem mergeInto_nil {α : Type} (st : List (String × α)) : mergeInto st [] = st := rfl

theorem mergeInto_cons {α : Type} (st : List (String × α)) (kv : String × α)
    (data : List (String × α)) :
    mergeInto st (kv :: data) = mergeInto (mapSet st kv.1 kv.2) data := rfl

theorem mergeInto_get_notMem {α : Type} {data : List (String × α)} {k : String}
    (h : ∀ kv ∈ data, kv.1 ≠ k) :
    ∀ st, mapGet (mergeInto st data) k = mapGet st k := by
  induction data with
  | nil => intro st; rfl
  | cons kv tl ih =>
    intro st
    rw [mergeInto_cons, ih (fun kv2 h2 => h kv2 (List.mem_cons_of_mem _ h2)),
      mapGet_mapSet]
    rw [if_neg (fun hrfl => h kv (List.mem_cons_self ..) hrfl.symm)]

theorem mergeInto_get_mem_nodup {α : Type} {data : List (String × α)} {k : String} {v : α}
    (hnd : (data.map (fun kv => kv.1)).Nodup) (hmem : (k, v) ∈ data) :
    ∀ st, mapGet (mergeInto st data) k = some v := by
  induction data with
  | nil => cases hmem
  | cons kv tl ih =>
    intro st
    rw [List.map_cons, List.nodup_cons] at hnd
    cases hmem with
    | head =>
      rw [mergeInto_cons,
        mergeInto_get_notMem
          (fun kv2 h2 hrfl => hnd.1 (by simpa [hrfl] using List.mem_map_of_mem (fun kv => kv.1) h2)),
        mapGet_mapSet, if_pos rfl]
    | tail _ htl =>
      rw [mergeInto_cons]
      exact ih hnd.2 htl _

theorem mergeInto_nodup {α : Type} {st : List (String × α)}
    (hnd : (st.map (fun kv => kv.1)).Nodup) (data : List (String × α)) :
    ((mergeInto st data).map (fun kv => kv.1)).Nodup := by
  induction data generalizing st with
  | nil => exact hnd
  | cons kv tl ih => exact mergeInto_cons st kv tl ▸ ih (mapSet_nodup _ _ hnd)

/-! ## Validate-pass lemmas -/

theorem vacLoop_cons (p : String) (sp : SchemaProp) (tl : List (String × SchemaProp))
    (st : Store) (es : List Err) :
    vacLoop ((p, sp) :: tl) st es =
      vacLoop tl (vacStep p sp st).1 (es ++ (vacStep p sp st).2.toList) := rfl

theorem vacStep_keys (p : String) (sp : SchemaProp) (st : Store) :
    ∀ x ∈ ((vacStep p sp st).1).map (fun kv => kv.1),
      x ∈ st.map (fun kv => kv.1) ∨ x = p := by
  intro x hx
  unfold vacStep at hx
  split at hx
  · split at hx
    · exact Or.inl (by simpa using hx)
    · exact Or.inl (by simpa using hx)
  · split at hx
    · exact mapSet_keys_sub st p _ x (by simpa using hx)
    · split at hx
      · exact mapSet_keys_sub st p _ x (by simpa using hx)
      · exact Or.inl (by simpa using hx)

theorem vacStep_get_ne (p : String) (sp : SchemaProp) (st : Store) (k : String)
    (hne : k ≠ p) : mapGet (vacStep p sp st).1 k = mapGet st k := by
  unfold vacStep
  split
  · split
    · rfl
    · rfl
  · split
    · simp [mapGet_mapSet, hne]
    · split
      · simp [mapGet_mapSet, hne]
      · rfl

theorem vacStep_nodup (p : String) (sp : SchemaProp) {st : Store}
    (hnd : (st.map (fun kv => kv.1)).Nodup) :
    (((vacStep p sp st).1).map (fun kv => kv.1)).Nodup := by
  unfold vacStep
  split
  · split
    · exact hnd
    · exact hnd
  · split
    · exact mapSet_nodup _ _ hnd
    · split
      · exact mapSet_nodup _ _ hnd
      · exact hnd

theorem vacLoop_get_notMem {props : List (String × SchemaProp)} {k : String}
    (h : ∀ q ∈ props, q.1 ≠ k) :
    ∀ st es, mapGet (vacLoop props st es).1 k = mapGet st k := by
  induction props with
  | nil => intro st es; rfl
  | cons q tl ih =>
    intro st es
    obtain ⟨p, sp⟩ := q
    rw [vacLoop_cons, ih (fun q2 h2 => h q2 (List.mem_cons_of_mem _ h2))]
    exact vacStep_get_ne p sp st k (fun hrfl => h (p, sp) (List.mem_cons_self ..) hrfl.symm)

theorem vacLoop_append (l1 l2 : List (String × SchemaProp)) :
    ∀ st es, vacLoop (l1 ++ l2) st es =
      vacLoop l2 (vacLoop l1 st es).1 (vacLoop l1 st es).2 := by
  induction l1 with
  | nil => intro st es; rfl
  | cons q tl ih =>
    intro st es
    obtain ⟨p, sp⟩ := q
    rw [List.cons_append, vacLoop_cons, vacLoop_cons, ih]

theorem vacLoop_errs_mono (props : List (String × SchemaProp)) :
    ∀ st es, ∃ add, (vacLoop props st es).2 = es ++ add := by
  induction props with
  | nil => intro st es; exact ⟨[], by simp [vacLoop]⟩
  | cons q tl ih =>
    intro st es
    obtain ⟨p, sp⟩ := q
    rw [vacLoop_cons]
    obtain ⟨add, hadd⟩ := ih (vacStep p sp st).1 (es ++ (vacStep p sp st).2.toList)
    exact ⟨(vacStep p sp st).2.toList ++ add, by rw [hadd, List.append_assoc]⟩

theorem vacLoop_nodup {props : List (String × SchemaProp)} {st : Store}
    (hnd : (st.map (fun kv => kv.1)).Nodup) (es : List Err) :
    (((vacLoop props st es).1).map (fun kv => kv.1)).Nodup := by
  induction props generalizing st es with
  | nil => exact hnd
  | cons q tl ih =>
    obtain ⟨p, sp⟩ := q
    rw [vacLoop_cons]
    exact ih (vacStep_nodup p sp hnd) _

/-- Success of the wrapper is exactly an error-free loop. -/
theorem vac_ok_iff (ps : ParsedSchema) (st st2 : Store) :
    (validateAndConvertConfiguration ps st).1 = .ok st2 ↔
      vacLoop ps.properties st [] = (st2, []) := by
  unfold validateAndConvertConfiguration
  rcases hres : vacLoop ps.properties st [] with ⟨st3, errs⟩
  match errs with
  | [] => constructor <;> intro h <;> simp_all
  | [e] => constructor <;> intro h <;> simp_all
  | e1 :: e2 :: tl => constructor <;> intro h <;> simp_all

/-- The store a run of the pass leaves behind, thrown or not, is the
loop's final store. -/
theorem vac_post (ps : ParsedSchema) (st : Store) :
    (validateAndConvertConfiguration ps st).2 = (vacLoop ps.properties st []).1 := by
  unfold validateAndConvertConfiguration
  rcases hres : vacLoop ps.properties st [] with ⟨st3, errs⟩
  match errs with
  | [] => rfl
  | [e] => rfl
  | e1 :: e2 :: tl => rfl

/-- A member of a key-unique association list splits it around the
member, with the key in neither side. -/
theorem mem_nodup_split {α : Type} {props : List (String × α)} {p : String} {sp : α}
    (hmem : (p, sp) ∈ props) (hnd : (props.map (fun kv => kv.1)).Nodup) :
    ∃ l1 l2, props = l1 ++ (p, sp) :: l2 ∧
      (∀ q ∈ l1, q.1 ≠ p) ∧ (∀ q ∈ l2, q.1 ≠ p) := by
  obtain ⟨l1, l2, rfl⟩ := List.append_of_mem hmem
  refine ⟨l1, l2, rfl, ?_, ?_⟩
  · intro q hq hrfl
    have h1 : p ∈ l1.map (fun kv => kv.1) := by
      simpa [hrfl] using List.mem_map_of_mem (fun kv => kv.1) hq
    have h2 : p ∈ ((p, sp) :: l2).map (fun kv => kv.1) := by simp
    have hd := List.disjoint_of_nodup_append (by simpa using hnd)
    exact hd h1 h2
  · intro q hq hrfl
    have hnd2 : (((p, sp) :: l2).map (fun kv => kv.1)).Nodup :=
      (List.nodup_append.mp (by simpa using hnd)).2.1
    rw [List.map_cons, List.nodup_cons] at hnd2
    refine hnd2.1 ?_
    simpa [hrfl] using List.mem_map_of_mem (fun kv => kv.1) hq

/-! ## Converter error facts -/

theorem exceptMap_err {α β γ : Type} {x : Except α β} {g : β → γ} {e : α}
    (h : x.map g = .error e) : x = .error e := by
  cases x with
  | ok b => simp [Except.map] at h
  | error a => simpa [Except.map] using h

theorem exceptMap_ok {α β γ : Type} {x : Except α β} {g : β → γ} {y : γ}
    (h : x.map g = .ok y) : ∃ b, x = .ok b ∧ y = g b := by
  cases x with
  | ok b => exact ⟨b, rfl, by simpa [Except.map] using h.symm⟩
  | error a => simp [Except.map] at h

theorem convertToString_err_property {v : JSValue} {p : String} {e : Err}
    (h : convertToString v p = .error e) : e.property = p := by
  cases v <;> simp only [convertToString] at h <;> cases h <;> rfl

theorem convertToNumber_err_property {v : JSValue} {p : String} {e : Err}
    (h : convertToNumber v p = .error e) : e.property = p := by
  cases v <;> simp only [convertToNumber] at h
  case vStr s =>
    split at h
    · cases h; rfl
    · split at h
      · cases h
      · cases h; rfl
  all_goals (cases h <;> rfl)

theorem convertToBoolean_err_property {v : JSValue} {p : String} {e : Err}
    (h : convertToBoolean v p = .error e) : e.property = p := by
  cases v <;> simp only [convertToBoolean] at h
  case vStr s =>
    split at h
    · cases h
    · split at h
      · cases h
      · cases h; rfl
  case vNum n =>
    split at h
    · cases h
    · split at h
      · cases h
      · cases h; rfl
  all_goals (cases h <;> rfl)

theorem convertToJSON_err_property {v : JSValue} {p : String} {e : Err}
    (h : convertToJSON v p = .error e) : e.property = p := by
  cases v <;> simp only [convertToJSON] at h
  case vStr s =>
    split at h
    · cases h; rfl
    · split at h
      · cases h
      · cases h; rfl
  all_goals (cases h <;> rfl)

theorem validateRegex_err_property {v : JSValue} {test : String → Bool} {source p : String}
    {e : Err} (h : validateRegex v test source p = .error e) : e.property = p := by
  unfold validateRegex at h
  split at h
  · rename_i err heq
    cases h
    exact convertToString_err_property heq
  · rename_i s heq
    split at h
    · cases h
    · cases h; rfl

theorem convertValue_err_property {v : JSValue} {fmt : Format} {p : String} {e : Err}
    (h : convertValue v fmt p = .error e) : e.property = p := by
  unfold convertValue at h
  split at h
  · cases h
  · cases fmt with
    | fRegex test source => exact validateRegex_err_property (exceptMap_err h)
    | fString => exact convertToString_err_property (exceptMap_err h)
    | fNumber => exact convertToNumber_err_property (exceptMap_err h)
    | fBoolean => exact convertToBoolean_err_property (exceptMap_err h)
    | fJson => exact convertToJSON_err_property h

theorem vacStep_err_property {p : String} {sp : SchemaProp} {st : Store} {e : Err}
    (h : (vacStep p sp st).2 = some e) : e.property = p := by
  unfold vacStep at h
  split at h
  · split at h
    · simp only [Option.some.injEq] at h
      rw [← h]
      rfl
    · cases h
  · split at h
    · cases h
    · split at h
      · cases h
      · rename_i hc
        simp only [Option.some.injEq] at h
        exact h ▸ convertValue_err_property hc

theorem vacLoop_errs_property {props : List (String × SchemaProp)} :
    ∀ st es, ∀ e ∈ (vacLoop props st es).2,
      e ∈ es ∨ e.property ∈ props.map (fun kv => kv.1) := by
  induction props with
  | nil => intro st es e he; exact Or.inl he
  | cons q tl ih =>
    intro st es e he
    obtain ⟨p, sp⟩ := q
    rw [vacLoop_cons] at he
    cases ih _ _ e he with
    | inl hmem =>
      rw [List.mem_append] at hmem
      cases hmem with
      | inl h1 => exact Or.inl h1
      | inr h2 =>
        cases hstep : (vacStep p sp st).2 with
        | none => rw [hstep] at h2; cases h2
        | some e2 =>
          rw [hstep] at h2
          simp only [Option.toList, List.mem_singleton] at h2
          subst h2
          exact Or.inr (by simp [vacStep_err_property hstep])
    | inr hmem => exact Or.inr (by simp [hmem])

/-! ## Idempotence of conversion for the non-json formats -/

def Format.isJson : Format → Bool
  | .fJson => true
  | _ => false

theorem jsonDefaultSkip_of_not_json {sp : SchemaProp} (hj : sp.format.isJson = false)
    (raw : JSValue) : jsonDefaultSkip sp raw = false := by
  unfold jsonDefaultSkip
  cases hf : sp.format <;> simp_all [Format.isJson]

theorem convertValue_idem {v c : JSValue} {fmt : Format} {p : String}
    (hok : convertValue v fmt p = .ok c) (hj : fmt.isJson = false) :
    convertValue c fmt p = .ok c := by
  unfold convertValue at hok ⊢
  by_cases hnull : v = .vNull
  · rw [if_pos hnull] at hok
    cases hok
    rw [if_pos rfl]
  · rw [if_neg hnull] at hok
    cases fmt with
    | fJson => cases hj
    | fString =>
      obtain ⟨s, hs, rfl⟩ := exceptMap_ok hok
      rw [if_neg (by simp)]
      simp [convertToString, Except.map]
    | fNumber =>
      obtain ⟨n, hn, rfl⟩ := exceptMap_ok hok
      rw [if_neg (by simp)]
      simp [convertToNumber, Except.map]
    | fBoolean =>
      obtain ⟨b, hb, rfl⟩ := exceptMap_ok hok
      rw [if_neg (by simp)]
      simp [convertToBoolean, Except.map]
    | fRegex test source =>
      obtain ⟨s, hs, rfl⟩ := exceptMap_ok hok
      rw [if_neg (by simp)]
      unfold validateRegex at hs ⊢
      split at hs
      · cases hs
      · rename_i s0 heq
        split at hs
        · rename_i htest
          cases hs
          simp only [convertToString]
          rw [if_pos htest]
          rfl
        · cases hs

/-- Null always converts to itself. -/
theorem convertValue_null (fmt : Format) (p : String) :
    convertValue .vNull fmt p = .ok .vNull := by
  unfold convertValue
  rw [if_pos rfl]

/-! ## Read-path error kinds -/

theorem navigateParts_err_kind {path : String} :
    ∀ {v : JSValue} {parts : List String} {e : Err},
      navigateParts path v parts = .error e → e.kind = .validation
  | v, [], e, h => by simp [navigateParts] at h
  | v, part :: rest, e, h => by
    unfold navigateParts at h
    split at h
    · rename_i fs
      split at h
      · exact navigateParts_err_kind h
      · cases h; rfl
    · cases h; rfl

theorem getNestedValue_err_kind {store : Store} {path : String} {e : Err}
    (h : getNestedValue store path = .error e) : e.kind = .validation := by
  unfold getNestedValue at h
  split at h
  · cases h
  · dsimp only [] at h
    split at h
    · exact navigateParts_err_kind h
    · cases h; rfl

theorem getSingleValue_err_kind {ps : ParsedSchema} {store : Store} {key : String} {e : Err}
    (h : getSingleValue ps store key = .error e) : e.kind = .validation := by
  unfold getSingleValue at h
  split at h
  · cases h
  · split at h
    · cases h
    · split at h
      · exact getNestedValue_err_kind h
      · cases h
        unfold handlePropertyNotFound
        split
        · rfl
        · unfold undefinedPropertyErr
          rfl

/-! ## Substring helpers -/

/-- The middle of a three-part concatenation is a substring. -/
theorem strInfix_mid (a x b : String) : x.data <:+: (a ++ x ++ b).data := by
  refine ⟨a.data, b.data, ?_⟩
  simp

theorem strInfix_trans_append_left (a : String) {x t : String}
    (h : x.data <:+: t.data) : x.data <:+: (a ++ t).data := by
  obtain ⟨u, w, huw⟩ := h
  exact ⟨a.data ++ u, w, by simp [← huw]⟩

/-- A mapped element's image is a substring of the separator-join. -/
theorem joinSep_infix_of_mem {α : Type} (f : α → String) (sep : String) :
    ∀ (l : List α) (x : α), x ∈ l → (f x).data <:+: (joinSep sep (l.map f)).data
  | [], x, hx => absurd hx (List.not_mem_nil x)
  | [y], x, hx => by
    rw [List.mem_singleton] at hx
    subst hx
    exact List.infix_refl _
  | y :: z :: tl, x, hx => by
    have hj : joinSep sep ((y :: z :: tl).map f)
        = f y ++ sep ++ joinSep sep ((z :: tl).map f) := rfl
    cases hx with
    | head =>
      refine ⟨[], (sep ++ joinSep sep ((z :: tl).map f)).data, ?_⟩
      rw [hj]
      simp
    | tail _ htl =>
      obtain ⟨u, w, huw⟩ := joinSep_infix_of_mem f sep (z :: tl) x htl
      refine ⟨(f y ++ sep).data ++ u, w, ?_⟩
      rw [hj]
      calc ((f y ++ sep).data ++ u) ++ (f x).data ++ w
          = (f y ++ sep).data ++ (u ++ (f x).data ++ w) := by simp [List.append_assoc]
        _ = (f y ++ sep).data ++ (joinSep sep ((z :: tl).map f)).data := by rw [huw]
        _ = (f y ++ sep ++ joinSep sep ((z :: tl).map f)).data := by simp

/-! ## Step-level case equations and loop composition -/

theorem vacStep_none_required {p : String} {sp : SchemaProp} {st : Store}
    (hg : mapGet st p = none) (hd : sp.default = none) :
    vacStep p sp st = (st, some (requiredErr p)) := by
  simp [vacStep, hg, hd]

theorem vacStep_none_default {p : String} {sp : SchemaProp} {st : Store} {d : JSValue}
    (hg : mapGet st p = none) (hd : sp.default = some d) :
    vacStep p sp st = (st, none) := by
  simp [vacStep, hg, hd]

theorem vacStep_some_skip {p : String} {sp : SchemaProp} {st : Store} {raw : JSValue}
    (hg : mapGet st p = some raw) (hskip : jsonDefaultSkip sp raw = true) :
    vacStep p sp st = (mapSet st p raw, none) := by
  simp [vacStep, hg, hskip]

theorem vacStep_some_convert {p : String} {sp : SchemaProp} {st : Store} {raw c : JSValue}
    (hg : mapGet st p = some raw) (hskip : jsonDefaultSkip sp raw = false)
    (hc : convertValue raw sp.format p = .ok c) :
    vacStep p sp st = (mapSet st p c, none) := by
  simp [vacStep, hg, hskip, hc]

theorem vacStep_some_err {p : String} {sp : SchemaProp} {st : Store} {raw : JSValue} {e : Err}
    (hg : mapGet st p = some raw) (hskip : jsonDefaultSkip sp raw = false)
    (hc : convertValue raw sp.format p = .error e) :
    vacStep p sp st = (st, some e) := by
  simp [vacStep, hg, hskip, hc]

/-- The loop's value at a property is its own step's output, applied to the
store the earlier properties left. -/
theorem vacLoop_at {l1 l2 : List (String × SchemaProp)} {p : String} {sp : SchemaProp}
    (h2 : ∀ q ∈ l2, q.1 ≠ p) (st : Store) (es : List Err) :
    mapGet (vacLoop (l1 ++ (p, sp) :: l2) st es).1 p
      = mapGet (vacStep p sp (vacLoop l1 st es).1).1 p := by
  rw [vacLoop_append, vacLoop_cons, vacLoop_get_notMem h2]

/-- A step's recorded error reaches the loop's final error list. -/
theorem vacLoop_at_err {l1 l2 : List (String × SchemaProp)} {p : String} {sp : SchemaProp}
    {st : Store} {es : List Err} {e : Err}
    (hstep : (vacStep p sp (vacLoop l1 st es).1).2 = some e) :
    e ∈ (vacLoop (l1 ++ (p, sp) :: l2) st es).2 := by
  rw [vacLoop_append, vacLoop_cons]
  obtain ⟨add, hadd⟩ := vacLoop_errs_mono l2 _ _
  rw [hadd, hstep]
  simp [Option.toList]

/-- A loop whose every step fixes the store and records nothing is the
identity. -/
theorem vacLoop_id {props : List (String × SchemaProp)} {st : Store}
    (h : ∀ q ∈ props, vacStep q.1 q.2 st = (st, none)) :
    ∀ es, vacLoop props st es = (st, es) := by
  induction props with
  | nil => intro es; rfl
  | cons q tl ih =>
    intro es
    obtain ⟨p, sp⟩ := q
    rw [vacLoop_cons, h (p, sp) (List.mem_cons_self ..)]
    simpa using ih (fun q2 h2 => h q2 (List.mem_cons_of_mem _ h2)) es

/-- A string never takes the json-default shortcut (its `typeof` is not
`object`). -/
theorem jsonDefaultSkip_vStr (sp : SchemaProp) (s : String) :
    jsonDefaultSkip sp (.vStr s) = false := by
  unfold jsonDefaultSkip
  cases sp.format <;> simp
  cases sp.default <;> simp [jsTypeof]

/-- Construction unfolded (definitional). -/
theorem loadConfiguration_eq (ps : ParsedSchema) (fd : List (String × JSValue))
    (env : String → Option String) :
    loadConfiguration ps (some fd) env =
      (validateAndConvertConfiguration ps
        (loadFromEnvironment ps env (mergeInto (applyDefaults ps) fd))).1 := rfl

theorem envLoad_nodup (inv : List (String × String)) (env : String → Option String) :
    ((environmentLoaderLoad inv env).map (fun kv => kv.1)).Nodup :=
  mergeInto_nodup (by simp) _

theorem applyDefaults_nodup (ps : ParsedSchema) :
    ((applyDefaults ps).map (fun kv => kv.1)).Nodup :=
  mergeInto_nodup (by simp) _

/-! ## Claim C3 -/

/-- Claim C3: after a validate-and-convert pass, exactly one recorded
property error is thrown as that error object itself (its kind intact);
two or more are wrapped in a single aggregated validation error whose
message contains every failing property path with its message and whose
payload carries the full error list; zero errors means the pass returns
the converted store without raising. -/
theorem claim_C3_theorem (ps : ParsedSchema) (st : Store) :
    ((vacLoop ps.properties st []).2 = [] →
      (validateAndConvertConfiguration ps st).1 = .ok (vacLoop ps.properties st []).1) ∧
    (∀ e, (vacLoop ps.properties st []).2 = [e] →
      (validateAndConvertConfiguration ps st).1 = .error e) ∧
    (2 ≤ (vacLoop ps.properties st []).2.length →
      (validateAndConvertConfiguration ps st).1
          = .error (aggregateErr (vacLoop ps.properties st []).2) ∧
      (aggregateErr (vacLoop ps.properties st []).2).kind = .validation ∧
      (aggregateErr (vacLoop ps.properties st []).2).subErrors
          = (vacLoop ps.properties st []).2 ∧
      ∀ e ∈ (vacLoop ps.properties st []).2,
        ("- " ++ e.property ++ ": " ++ e.message).data <:+:
          (aggregateErr (vacLoop ps.properties st []).2).message.data) := by
  refine ⟨?_, ?_, ?_⟩
  · intro h0
    rw [vac_ok_iff]
    have hpair : vacLoop ps.properties st []
        = ((vacLoop ps.properties st []).1, (vacLoop ps.properties st []).2) := rfl
    rw [hpair, h0]
  · intro e h1
    unfold validateAndConvertConfiguration
    rcases hres : vacLoop ps.properties st [] with ⟨st3, errs⟩
    rw [hres] at h1
    simp only [] at h1
    subst h1
    rfl
  · intro h2
    refine ⟨?_, rfl, rfl, ?_⟩
    · unfold validateAndConvertConfiguration
      rcases hres : vacLoop ps.properties st [] with ⟨st3, errs⟩
      rw [hres] at h2
      match errs, h2 with
      | e1 :: e2 :: tl, _ => rfl
    · intro e he
      have hmsg : (aggregateErr (vacLoop ps.properties st []).2).message
          = "Configuration validation failed:\n" ++
            joinSep "\n" ((vacLoop ps.properties st []).2.map
              (fun e => "- " ++ e.property ++ ": " ++ e.message)) := rfl
      rw [hmsg]
      exact strInfix_trans_append_left _
        (joinSep_infix_of_mem (fun e => "- " ++ e.property ++ ": " ++ e.message) "\n" _ e he)

/-! ## Claim C7 -/

def envEmpty : String → Option String := fun _ => none

def spB : SchemaProp := { format := .fBoolean, env := some "MY_ENV_VAR" }

def psB : ParsedSchema :=
  { properties := [("a", spB)], envMappings := [("MY_ENV_VAR", "a")], defaults := [] }

/-- Claim C7 counterexample: the missing-required-property message never
mentions the bound environment variable.  The schema binds `MY_ENV_VAR`
to the property `a`, the property has no default and no source supplies
it, yet the raised message is exactly the fixed sentence naming only the
path — the variable name is not a substring of it. -/
theorem claim_C7_counterexample :
    (∃ sp, ("a", sp) ∈ psB.properties ∧ sp.env = some "MY_ENV_VAR") ∧
    ∃ e, loadConfiguration psB none envEmpty = .error e ∧
      e.message = "Required property 'a' is missing and has no default value" ∧
      ¬ ("MY_ENV_VAR".data <:+: e.message.data) := by
  exact ⟨⟨spB, List.mem_singleton.mpr rfl, rfl⟩,
    ⟨requiredErr "a", rfl, rfl, by decide⟩⟩

/-- Claim C7 (amended): a schema property with no declared default whose
path has no value in the merged store makes the validate-and-convert pass
record the missing-required error for that path: a validation-kind error
whose message contains the quoted path and the words "Required property"
(the bound environment variable's name is not part of the message, as the
counterexample shows). -/
theorem claim_C7_theorem (ps : ParsedSchema) (st : Store) (p : String) (sp : SchemaProp)
    (hmem : (p, sp) ∈ ps.properties)
    (hnd : (ps.properties.map (fun kv => kv.1)).Nodup)
    (hd : sp.default = none)
    (hg : mapGet st p = none) :
    requiredErr p ∈ (vacLoop ps.properties st []).2 ∧
    (requiredErr p).kind = .validation ∧
    ("'" ++ p ++ "'").data <:+: (requiredErr p).message.data ∧
    ("Required property" : String).data <:+: (requiredErr p).message.data := by
  obtain ⟨l1, l2, hsplit, h1, h2⟩ := mem_nodup_split hmem hnd
  have hg1 : mapGet (vacLoop l1 st []).1 p = none := by
    rw [vacLoop_get_notMem h1]; exact hg
  have hstep : (vacStep p sp (vacLoop l1 st []).1).2 = some (requiredErr p) := by
    rw [vacStep_none_required hg1 hd]
  refine ⟨?_, rfl, ?_, ?_⟩
  · rw [hsplit]
    exact vacLoop_at_err hstep
  · show ("'" ++ p ++ "'").data <:+:
      ("Required property '" ++ p ++ "' is missing and has no default value" : String).data
    refine ⟨("Required property " : String).data,
      (" is missing and has no default value" : String).data, ?_⟩
    have ha : ("Required property '" : String).data
        = ("Required property " : String).data ++ ("'" : String).data := rfl
    have hb : ("' is missing and has no default value" : String).data
        = ("'" : String).data ++ (" is missing and has no default value" : String).data := rfl
    simp [ha, hb]
  · show ("Required property" : String).data <:+:
      ("Required property '" ++ p ++ "' is missing and has no default value" : String).data
    refine ⟨[], (" '" ++ p ++ "' is missing and has no default value").data, ?_⟩
    have hc : ("Required property '" : String).data
        = ("Required property" : String).data ++ (" '" : String).data := rfl
    simp [hc]

/-- Claim C7 witness: the concrete schema of the claim, one property `a`
of boolean format bound to `MY_ENV_VAR`, no default, empty store. -/
theorem claim_C7_witness :
    requiredErr "a" ∈ (vacLoop psB.properties [] []).2 ∧
    (requiredErr "a").kind = .validation ∧
    ("'" ++ "a" ++ "'").data <:+: (requiredErr "a").message.data ∧
    ("Required property" : String).data <:+: (requiredErr "a").message.data :=
  claim_C7_theorem psB [] "a" spB (List.mem_singleton.mpr rfl) (by decide) rfl rfl

/-! ## Claim C10 -/

def psT : ParsedSchema :=
  { properties := [("x", { format := .fString })], envMappings := [], defaults := [] }

/-- Claim C10: a key merged from a file (or async-loader) source that the
schema does not know is untouched: the validate pass records no error for
it, the pair survives in the post-load store with its raw unconverted
value, and a subsequent `get` of that key returns the raw value instead
of the unknown-property error. -/
theorem claim_C10_theorem (ps : ParsedSchema) (env : String → Option String)
    (st : Store) (fd : List (String × JSValue)) (k : String) (v : JSValue)
    (hk : ∀ q ∈ ps.properties, q.1 ≠ k)
    (henv : ∀ kv ∈ environmentLoaderLoad (invertMappings ps.envMappings) env, kv.1 ≠ k)
    (hfdnd : (fd.map (fun kv => kv.1)).Nodup)
    (hfd : (k, v) ∈ fd) :
    (∀ e ∈ (vacLoop ps.properties
        (loadFromEnvironment ps env (mergeInto st fd)) []).2, e.property ≠ k) ∧
    mapGet (loadOp ps env st (.ok fd)).2 k = some v ∧
    (∀ st2, (loadOp ps env st (.ok fd)).1 = .ok st2 →
      getSingleValue ps st2 k = .ok v) := by
  have hm2 : mapGet (loadFromEnvironment ps env (mergeInto st fd)) k = some v := by
    unfold loadFromEnvironment
    rw [mergeInto_get_notMem henv, mergeInto_get_mem_nodup hfdnd hfd]
  refine ⟨?_, ?_, ?_⟩
  · intro e he hrfl
    cases vacLoop_errs_property _ _ e he with
    | inl h0 => cases h0
    | inr h0 =>
      obtain ⟨q, hq, hq2⟩ := List.mem_map.mp h0
      exact hk q hq (hq2.trans hrfl)
  · have hsnd : (loadOp ps env st (.ok fd)).2
        = (validateAndConvertConfiguration ps
            (loadFromEnvironment ps env (mergeInto st fd))).2 := rfl
    rw [hsnd, vac_post, vacLoop_get_notMem hk, hm2]
  · intro st2 hok
    have hok2 : (validateAndConvertConfiguration ps
        (loadFromEnvironment ps env (mergeInto st fd))).1 = .ok st2 := hok
    rw [vac_ok_iff] at hok2
    have hval := vacLoop_get_notMem hk (loadFromEnvironment ps env (mergeInto st fd)) []
    rw [hok2, hm2] at hval
    simp [getSingleValue, hval]

/-- Claim C10 witness: a one-property schema, a file pair `extra ↦ 7`
unknown to it; the pair survives the load and `get` returns it. -/
theorem claim_C10_witness :
    mapGet (loadOp psT envEmpty [("x", .vStr "v")] (.ok [("extra", .vNum 7)])).2 "extra"
        = some (.vNum 7) ∧
    getSingleValue psT [("x", .vStr "v"), ("extra", .vNum 7)] "extra" = .ok (.vNum 7) :=
  ⟨(claim_C10_theorem psT envEmpty [("x", .vStr "v")] [("extra", .vNum 7)] "extra" (.vNum 7)
      (by decide) (by decide) (by decide) (List.mem_singleton.mpr rfl)).2.1,
   (claim_C10_theorem psT envEmpty [("x", .vStr "v")] [("extra", .vNum 7)] "extra" (.vNum 7)
      (by decide) (by decide) (by decide) (List.mem_singleton.mpr rfl)).2.2
      [("x", .vStr "v"), ("extra", .vNum 7)] rfl⟩

/-! ## Claim C2 -/

def spP : SchemaProp :=
  { format := .fNumber, env := some "PORT", default := some (.vNum 3000) }

def psP : ParsedSchema :=
  { properties := [("port", spP)], envMappings := [("PORT", "port")],
    defaults := [("port", .vNum 3000)] }

def envPort : String → Option String := fun v => if v = "PORT" then some "8080" else none

def spQ : SchemaProp := { format := .fNumber, default := some (.vStr "8080") }

def psQ : ParsedSchema :=
  { properties := [("port", spQ)], envMappings := [], defaults := [("port", .vStr "8080")] }

/-- Claim C2 counterexample: a fallback source's value is not returned
as-is — it passes through type conversion like any other.  With a string
default `"8080"` on a number-format property, no file value and no
environment binding, construction succeeds and `get('port')` returns the
number 8080, which is not the schema default value `"8080"`. -/
theorem claim_C2_counterexample :
    loadConfiguration psQ (some []) envEmpty = .ok [("port", .vNum 8080)] ∧
    mapGet psQ.defaults "port" = some (.vStr "8080") ∧
    getSingleValue psQ [("port", .vNum 8080)] "port" = .ok (.vNum 8080) ∧
    (JSValue.vNum 8080) ≠ .vStr "8080" :=
  ⟨rfl, rfl, rfl, by decide⟩

/-- Claim C2 (amended): source precedence with conversion applied to the
winning raw value.  After a successful construction, for a schema
property `p`: if the environment layer binds `p` to a string `s`, `get p`
is the converted value of `s`; with no environment binding but a file
value, `get p` is the converted file value; with neither, `get p` is the
converted declared default (conversion per the property's format; the
json-format already-equal-to-default shortcut excluded in the fallback
clauses, a string never takes it). -/
theorem claim_C2_theorem (ps : ParsedSchema) (fd : List (String × JSValue))
    (env : String → Option String) (p : String) (sp : SchemaProp) (st2 : Store)
    (hmem : (p, sp) ∈ ps.properties)
    (hnd : (ps.properties.map (fun kv => kv.1)).Nodup)
    (hfdnd : (fd.map (fun kv => kv.1)).Nodup)
    (hddnd : (ps.defaults.map (fun kv => kv.1)).Nodup)
    (hok : loadConfiguration ps (some fd) env = .ok st2) :
    (∀ s, mapGet (environmentLoaderLoad (invertMappings ps.envMappings) env) p
        = some (.vStr s) →
      ∃ c, convertValue (.vStr s) sp.format p = .ok c ∧
        getSingleValue ps st2 p = .ok c) ∧
    (mapGet (environmentLoaderLoad (invertMappings ps.envMappings) env) p = none →
      ∀ fv, mapGet fd p = some fv → jsonDefaultSkip sp fv = false →
      ∃ c, convertValue fv sp.format p = .ok c ∧
        getSingleValue ps st2 p = .ok c) ∧
    (mapGet (environmentLoaderLoad (invertMappings ps.envMappings) env) p = none →
      mapGet fd p = none →
      ∀ dv, mapGet ps.defaults p = some dv → jsonDefaultSkip sp dv = false →
      ∃ c, convertValue dv sp.format p = .ok c ∧
        getSingleValue ps st2 p = .ok c) := by
  obtain ⟨l1, l2, hsplit, h1, h2⟩ := mem_nodup_split hmem hnd
  have hok2 : (validateAndConvertConfiguration ps
      (loadFromEnvironment ps env (mergeInto (applyDefaults ps) fd))).1 = .ok st2 := hok
  rw [vac_ok_iff] at hok2
  have key : ∀ raw,
      mapGet (loadFromEnvironment ps env (mergeInto (applyDefaults ps) fd)) p = some raw →
      jsonDefaultSkip sp raw = false →
      ∃ c, convertValue raw sp.format p = .ok c ∧ getSingleValue ps st2 p = .ok c := by
    intro raw hraw hskip
    have hg1 : mapGet (vacLoop l1
        (loadFromEnvironment ps env (mergeInto (applyDefaults ps) fd)) []).1 p = some raw := by
      rw [vacLoop_get_notMem h1]; exact hraw
    rcases hc : convertValue raw sp.format p with e | c
    · exfalso
      have hstep : (vacStep p sp (vacLoop l1
          (loadFromEnvironment ps env (mergeInto (applyDefaults ps) fd)) []).1).2
            = some e := by
        rw [vacStep_some_err hg1 hskip hc]
      have hmem2 : e ∈ (vacLoop (l1 ++ (p, sp) :: l2)
          (loadFromEnvironment ps env (mergeInto (applyDefaults ps) fd)) []).2 :=
        vacLoop_at_err hstep
      rw [← hsplit, hok2] at hmem2
      cases hmem2
    · refine ⟨c, rfl, ?_⟩
      have hat : mapGet (vacLoop (l1 ++ (p, sp) :: l2)
            (loadFromEnvironment ps env (mergeInto (applyDefaults ps) fd)) []).1 p
          = mapGet (vacStep p sp (vacLoop l1
            (loadFromEnvironment ps env (mergeInto (applyDefaults ps) fd)) []).1).1 p :=
        vacLoop_at h2 _ []
      rw [← hsplit, hok2, vacStep_some_convert hg1 hskip hc, mapGet_mapSet] at hat
      rw [if_pos rfl] at hat
      simp [getSingleValue, hat]
  refine ⟨?_, ?_, ?_⟩
  · intro s hs
    refine key _ ?_ (jsonDefaultSkip_vStr sp s)
    exact mergeInto_get_mem_nodup (envLoad_nodup _ _) (mapGet_mem hs) _
  · intro henvn fv hfv hskip
    refine key _ ?_ hskip
    show mapGet (mergeInto (mergeInto (applyDefaults ps) fd)
      (environmentLoaderLoad (invertMappings ps.envMappings) env)) p = some fv
    rw [mergeInto_get_notMem (mapGet_eq_none.mp henvn)]
    exact mergeInto_get_mem_nodup hfdnd (mapGet_mem hfv) _
  · intro henvn hfn dv hdv hskip
    refine key _ ?_ hskip
    show mapGet (mergeInto (mergeInto (applyDefaults ps) fd)
      (environmentLoaderLoad (invertMappings ps.envMappings) env)) p = some dv
    rw [mergeInto_get_notMem (mapGet_eq_none.mp henvn),
      mergeInto_get_notMem (mapGet_eq_none.mp hfn)]
    exact mergeInto_get_mem_nodup hddnd (mapGet_mem hdv) _

/-- Claim C2 witness: the claim's concrete schema
`\x7bport: \x7bformat: number, env: PORT, default: 3000\x7d\x7d`.  With an
empty environment `get('port')` is the converted default, the number
3000; with `PORT=8080` it is the converted environment string, a
number. -/
theorem claim_C2_witness :
    (∃ c, convertValue (.vNum 3000) spP.format "port" = .ok c ∧
      getSingleValue psP [("port", .vNum 3000)] "port" = .ok c) ∧
    (∃ c, convertValue (.vStr "8080") spP.format "port" = .ok c ∧
      getSingleValue psP [("port", .vNum 8080)] "port" = .ok c) :=
  ⟨(claim_C2_theorem psP [] envEmpty "port" spP [("port", .vNum 3000)]
      (List.mem_singleton.mpr rfl) (by decide) (by decide) (by decide) rfl).2.2
      rfl rfl (.vNum 3000) rfl (by decide),
   (claim_C2_theorem psP [] envPort "port" spP [("port", .vNum 8080)]
      (List.mem_singleton.mpr rfl) (by decide) (by decide) (by decide) rfl).1
      "8080" rfl⟩

/-! ## Claim C1 -/

def spV : SchemaProp := { format := .fNumber, default := some (.vNum 1) }

def psV : ParsedSchema :=
  { properties := [("a", spV)], envMappings := [], defaults := [("a", .vNum 1)] }

/-- Claim C1 counterexample: a `load` whose validate pass fails does not
restore the pre-mutation store.  Starting from the valid store `a ↦ 1`,
loading file data `a ↦ "bad"` (unparseable as a number) throws, yet the
store afterwards holds the merged raw value `"bad"`, not the
pre-mutation contents. -/
theorem claim_C1_counterexample :
    (validateAndConvertConfiguration psV [("a", .vNum 1)]).1 = .ok [("a", .vNum 1)] ∧
    (∃ e, (loadOp psV envEmpty [("a", .vNum 1)] (.ok [("a", .vStr "bad")])).1 = .error e) ∧
    (loadOp psV envEmpty [("a", .vNum 1)] (.ok [("a", .vStr "bad")])).2
        = [("a", .vStr "bad")] ∧
    [("a", JSValue.vStr "bad")] ≠ [("a", JSValue.vNum 1)] :=
  ⟨rfl, ⟨_, rfl⟩, rfl, by decide⟩

/-- Claim C1 (amended): a failed mutation still throws/rejects, but only
loader failures that merge nothing leave the store at its pre-mutation
contents: a file-loader failure in `load`, and a first-loader rejection in
`asyncLoad`, return the untouched store; a validate-pass failure instead
leaves the store exactly as the in-place merge-and-convert loop left it
(no rollback to the pre-mutation state). -/
theorem claim_C1_theorem (ps : ParsedSchema) (env : String → Option String)
    (st : Store) (e : Err) (fd : List (String × JSValue))
    (loaders : List (Except Err (List (String × JSValue)))) :
    loadOp ps env st (.error e) = (.error e, st) ∧
    asyncLoadOp ps env st (.error e :: loaders) = (.error e, st) ∧
    (∀ e2, (loadOp ps env st (.ok fd)).1 = .error e2 →
      (loadOp ps env st (.ok fd)).2
        = (vacLoop ps.properties (loadFromEnvironment ps env (mergeInto st fd)) []).1) := by
  refine ⟨rfl, rfl, ?_⟩
  intro e2 _
  exact vac_post ps (loadFromEnvironment ps env (mergeInto st fd))

/-! ## Claim C4 -/

def psJ : ParsedSchema :=
  { properties := [("j", { format := .fJson })], envMappings := [], defaults := [] }

/-- Claim C4 counterexample: re-running the validate-and-convert pass on
an already-valid store fails for a json-format property whose stored
value is a parsed object.  The first pass converts the JSON string to an
object and succeeds; the second pass rejects that object because the
json converter expects a string. -/
theorem claim_C4_counterexample :
    (validateAndConvertConfiguration psJ [("j", .vStr "\x7b\x7d")]).1
        = .ok [("j", .vObj [])] ∧
    ∃ e, (validateAndConvertConfiguration psJ [("j", .vObj [])]).1 = .error e ∧
      ("JSON format expects a string value" : String).data <:+: e.message.data := by
  have hp : jsonParse "\x7b\x7d" = some (.vObj []) := by
    have h0 := jsonParse_stringify (.vObj [])
    rwa [show jsonStringify (.vObj []) = "\x7b\x7d" from rfl] at h0
  have hcv : convertValue (.vStr "\x7b\x7d") Format.fJson "j" = .ok (.vObj []) := by
    have h0 : convertValue (.vStr "\x7b\x7d") Format.fJson "j"
        = convertToJSON (.vStr "\x7b\x7d") "j" := rfl
    rw [h0]
    simp only [convertToJSON]
    rw [if_neg (by decide), hp]
  refine ⟨?_, ⟨_, rfl, by decide⟩⟩
  unfold validateAndConvertConfiguration
  have hloop : vacLoop psJ.properties [("j", .vStr "\x7b\x7d")] []
      = ([("j", .vObj [])], []) := by
    rw [show psJ.properties = [("j", ({ format := .fJson } : SchemaProp))] from rfl,
      vacLoop_cons, vacStep_some_convert
        (show mapGet [("j", JSValue.vStr "\x7b\x7d")] "j" = some (.vStr "\x7b\x7d") from rfl)
        (show jsonDefaultSkip { format := .fJson } (.vStr "\x7b\x7d") = false from rfl) hcv]
    rfl
  rw [hloop]

/-- Claim C4 (amended): re-running the pass on the store a successful
pass produced changes nothing and raises nothing, provided every
json-format property's resulting value is either null or takes the
declared-object-default shortcut; for json values that are any other
parsed object the second pass fails, as the counterexample shows. -/
theorem claim_C4_theorem (ps : ParsedSchema) (st st2 : Store)
    (hpnd : (ps.properties.map (fun kv => kv.1)).Nodup)
    (hok : (validateAndConvertConfiguration ps st).1 = .ok st2)
    (hjson : ∀ q ∈ ps.properties, (q.2 : SchemaProp).format.isJson = true →
      ∀ c, mapGet st2 q.1 = some c → c = JSValue.vNull ∨ jsonDefaultSkip q.2 c = true) :
    (validateAndConvertConfiguration ps st2).1 = .ok st2 ∧
    (validateAndConvertConfiguration ps st2).2 = st2 := by
  rw [vac_ok_iff] at hok
  have hfix : ∀ q ∈ ps.properties, vacStep q.1 q.2 st2 = (st2, none) := by
    intro q hq
    obtain ⟨p, sp⟩ := q
    obtain ⟨l1, l2, hsplit, h1, h2⟩ := mem_nodup_split hq hpnd
    have hat : mapGet (vacLoop (l1 ++ (p, sp) :: l2) st []).1 p
        = mapGet (vacStep p sp (vacLoop l1 st []).1).1 p := vacLoop_at h2 st []
    rw [← hsplit, hok] at hat
    rcases hg1 : mapGet (vacLoop l1 st []).1 p with _ | raw
    · rcases hdef : sp.default with _ | d
      · exfalso
        have hstep : (vacStep p sp (vacLoop l1 st []).1).2 = some (requiredErr p) := by
          rw [vacStep_none_required hg1 hdef]
        have hmem2 : requiredErr p ∈ (vacLoop (l1 ++ (p, sp) :: l2) st []).2 :=
          vacLoop_at_err hstep
        rw [← hsplit, hok] at hmem2
        cases hmem2
      · have hg2 : mapGet st2 p = none := by
          rw [hat, vacStep_none_default hg1 hdef]; exact hg1
        exact vacStep_none_default hg2 hdef
    · cases hskip : jsonDefaultSkip sp raw with
      | false =>
        rcases hc : convertValue raw sp.format p with e | c
        · exfalso
          have hstep : (vacStep p sp (vacLoop l1 st []).1).2 = some e := by
            rw [vacStep_some_err hg1 hskip hc]
          have hmem2 : e ∈ (vacLoop (l1 ++ (p, sp) :: l2) st []).2 := vacLoop_at_err hstep
          rw [← hsplit, hok] at hmem2
          cases hmem2
        · have hg2 : mapGet st2 p = some c := by
            rw [hat, vacStep_some_convert hg1 hskip hc, mapGet_mapSet, if_pos rfl]
          cases hj : sp.format.isJson with
          | false =>
            rw [vacStep_some_convert hg2 (jsonDefaultSkip_of_not_json hj c)
              (convertValue_idem hc hj), mapSet_self hg2]
          | true =>
            cases hjson (p, sp) hq hj c hg2 with
            | inl hnull =>
              subst hnull
              cases hsk2 : jsonDefaultSkip sp .vNull with
              | false =>
                rw [vacStep_some_convert hg2 hsk2 (convertValue_null _ _), mapSet_self hg2]
              | true => rw [vacStep_some_skip hg2 hsk2, mapSet_self hg2]
            | inr hsk2 => rw [vacStep_some_skip hg2 hsk2, mapSet_self hg2]
      | true =>
        have hg2 : mapGet st2 p = some raw := by
          rw [hat, vacStep_some_skip hg1 hskip, mapGet_mapSet, if_pos rfl]
        rw [vacStep_some_skip hg2 hskip, mapSet_self hg2]
  have hloop := vacLoop_id hfix []
  constructor
  · rw [vac_ok_iff]; exact hloop
  · rw [vac_post, hloop]

def spJD : SchemaProp := { format := .fJson, default := some (.vObj []) }

def psJD : ParsedSchema :=
  { properties := [("j", spJD)], envMappings := [], defaults := [("j", .vObj [])] }

/-- Claim C4 witness: a json property whose value equals its declared
object default passes the second run untouched. -/
theorem claim_C4_witness :
    (validateAndConvertConfiguration psJD [("j", .vObj [])]).1 = .ok [("j", .vObj [])] ∧
    (validateAndConvertConfiguration psJD [("j", .vObj [])]).2 = [("j", .vObj [])] :=
  claim_C4_theorem psJD [("j", .vObj [])] [("j", .vObj [])] (by decide) rfl
    (by
      intro q hq hj c hc
      have hq2 : q = ("j", spJD) := by simpa [psJD] using hq
      subst hq2
      have hc2 : some (JSValue.vObj []) = some c := hc
      cases hc2
      exact Or.inr rfl)

/-! ## Claim C6 -/

theorem strInfix_append_right (b : String) {x t : String}
    (h : x.data <:+: t.data) : x.data <:+: (t ++ b).data := by
  obtain ⟨u, w, huw⟩ := h
  exact ⟨u, w ++ b.data, by simp [← huw]⟩

theorem strInfix_right_arm (a x : String) : x.data <:+: (a ++ x).data :=
  ⟨a.data, [], by simp⟩

/-- Claim C6: the `tryGet` fallback law.  `tryGet p f` is `get p` when the
primary resolves; when the primary fails (necessarily with the engine's
validation-kind "not defined" class — every `get` error has that kind,
making the immediate-propagation branch for other kinds vacuous) and the
fallback resolves, it is `get f`; when both fail it raises one aggregate
whose message contains both keys and both underlying messages. -/
theorem claim_C6_theorem (ps : ParsedSchema) (st : Store) (p f : String) :
    (∀ v, getSingleValue ps st p = .ok v → tryGet ps st p f = .ok v) ∧
    (∀ e v, getSingleValue ps st p = .error e → getSingleValue ps st f = .ok v →
      tryGet ps st p f = .ok v) ∧
    (∀ e fe, getSingleValue ps st p = .error e → getSingleValue ps st f = .error fe →
      ∃ ag, tryGet ps st p f = .error ag ∧ ag.kind = .validation ∧
        p.data <:+: ag.message.data ∧ f.data <:+: ag.message.data ∧
        e.message.data <:+: ag.message.data ∧ fe.message.data <:+: ag.message.data) ∧
    (∀ e, getSingleValue ps st p = .error e → e.kind ≠ .validation →
      tryGet ps st p f = .error e) ∧
    (∀ e, getSingleValue ps st p = .error e → e.kind = .validation) := by
  refine ⟨?_, ?_, ?_, ?_, ?_⟩
  · intro v hv
    simp [tryGet, hv]
  · intro e v he hv
    have hek : e.kind = .validation := getSingleValue_err_kind he
    simp [tryGet, he, hek, hv]
  · intro e fe he hfe
    have hek : e.kind = .validation := getSingleValue_err_kind he
    have hfk : fe.kind = .validation := getSingleValue_err_kind hfe
    refine ⟨Err.mk .validation
        (("Both primary key '" ++ p ++ "' and fallback key '" ++ f ++
          "' failed. Primary error: " ++ e.message ++ ". Fallback error: " ++ fe.message)
          ++ ".") p none [],
      by simp [tryGet, he, hek, hfe, hfk], rfl, ?_, ?_, ?_, ?_⟩
    · exact strInfix_append_right _ (strInfix_append_right _ (strInfix_append_right _
        (strInfix_append_right _ (strInfix_append_right _ (strInfix_append_right _
        (strInfix_append_right _ (strInfix_right_arm _ _)))))))
    · exact strInfix_append_right _ (strInfix_append_right _ (strInfix_append_right _
        (strInfix_append_right _ (strInfix_append_right _ (strInfix_right_arm _ _)))))
    · exact strInfix_append_right _ (strInfix_append_right _ (strInfix_append_right _
        (strInfix_right_arm _ _)))
    · exact strInfix_append_right _ (strInfix_right_arm _ _)
  · intro e he hek
    simp [tryGet, he, hek]
  · intro e he
    exact getSingleValue_err_kind he

/-! ## Claim C5 -/

theorem digit_not_ws {c : Char} (hd : c.isDigit = true) : c.isWhitespace = false := by
  by_contra hws
  rw [Bool.not_eq_false] at hws
  simp [Char.isWhitespace] at hws
  rcases hws with ((h | h) | h) | h <;> (subst h; exact absurd hd (by decide))

theorem trimChars_cons_not_ws {c : Char} {t : List Char}
    (h : c.isWhitespace = false) : trimChars (c :: t) ≠ [] := by
  unfold trimChars
  intro hnil
  rw [List.reverse_eq_nil_iff, List.dropWhile_eq_nil_iff] at hnil
  have hc : c ∈ (List.dropWhile Char.isWhitespace (c :: t)).reverse := by
    rw [List.dropWhile_cons]
    simp [h]
  exact absurd (hnil c hc) (by simp [h])

/-- Every value the serializer emits starts with a non-whitespace
character, so the json converter's emptiness trim never fires on it. -/
theorem jrender_head_not_ws (v : JSValue) :
    ∃ c t, jrender v = c :: t ∧ c.isWhitespace = false := by
  cases v with
  | vNull => exact ⟨'n', _, rfl, by decide⟩
  | vBool b => cases b with
    | true => exact ⟨'t', _, rfl, by decide⟩
    | false => exact ⟨'f', _, rfl, by decide⟩
  | vNum i =>
    by_cases hneg : i < 0
    · refine ⟨'-', natChars i.natAbs, ?_, by decide⟩
      simp [jrender, intChars, hneg]
    · obtain ⟨c, t, hct⟩ : ∃ c t, natChars i.natAbs = c :: t := by
        cases h : natChars i.natAbs with
        | nil => exact absurd h (natChars_ne_nil _)
        | cons c t => exact ⟨c, t, rfl⟩
      have hd : c.isDigit = true :=
        natChars_all_digits i.natAbs c (hct ▸ List.mem_cons_self ..)
      refine ⟨c, t, ?_, digit_not_ws hd⟩
      simp [jrender, intChars, hneg, hct]
  | vStr s => exact ⟨'"', _, rfl, by decide⟩
  | vArr xs => cases xs with
    | nil => exact ⟨'[', _, rfl, by decide⟩
    | cons x tl => exact ⟨'[', _, rfl, by decide⟩
  | vObj fs => cases fs with
    | nil => exact ⟨'{', _, rfl, by decide⟩
    | cons m tl => exact ⟨'{', _, rfl, by decide⟩

/-- Claim C5: the json round-trip, and the cycle detector.  Converting
the serialization of any (cycle-free by construction) tree value through
the json format returns the value itself; converting a heap reference
that reaches an object cyclically reachable from itself through property
or array-index edges to a string raises a conversion error carrying the
circular-reference message with a nonempty path of segments. -/
theorem claim_C5_theorem :
    (∀ (x : JSValue) (p : String),
      convertValue (.vStr (jsonStringify x)) .fJson p = .ok x) ∧
    (∀ (h : Heap) (r : Nat) (p : String), HCycleFrom h r →
      ∃ segs, segs ≠ [] ∧
        convertValueStringG h (.gRef r) p
          = .error (.mk .parse (circularMessage segs) p none []) ∧
        (" at path: " : String).data <:+: (circularMessage segs).data) := by
  constructor
  · intro x p
    unfold convertValue
    rw [if_neg (by simp)]
    simp only [convertToJSON]
    have htrim : trimChars (jsonStringify x).data ≠ [] := by
      obtain ⟨c, t, hct, hws⟩ := jrender_head_not_ws x
      rw [show (jsonStringify x).data = jrender x from rfl, hct]
      exact trimChars_cons_not_ws hws
    rw [if_neg htrim, jsonParse_stringify]
  · intro h r p hcyc
    obtain ⟨path, herr⟩ := detect_cycle_error hcyc
    have hne : path ≠ [] := detect_root_err_ne_nil herr
    refine ⟨path, hne, ?_, ?_⟩
    · unfold convertValueStringG
      rw [if_neg (by simp)]
      simp only [convertToStringG]
      rw [herr]
      rfl
    · have hfalse : path.isEmpty = false := by
        cases path with
        | nil => exact absurd rfl hne
        | cons a t => rfl
      unfold circularMessage
      simp only [hfalse, Bool.false_eq_true, if_false]
      exact strInfix_append_right _
        (strInfix_trans_append_left _ ⟨[], (joinSep "." path).data, by simp⟩)

/-! ## Claim C8 -/

theorem charsLe_total : ∀ x y, charsLe x y = false → charsLe y x = true
  | [], _, h => by simp [charsLe] at h
  | _ :: _, [], _ => rfl
  | a :: x, b :: y, h => by
    simp only [charsLe] at h ⊢
    by_cases hab : a = b
    · subst hab
      rw [if_pos rfl] at h ⊢
      exact charsLe_total x y h
    · rw [if_neg hab] at h
      rw [if_neg (Ne.symm hab), decide_eq_true_eq]
      rw [decide_eq_false_iff_not] at h
      exact lt_of_le_of_ne (not_lt.mp h) (Ne.symm hab)

theorem charsLe_trans : ∀ x y z, charsLe x y = true → charsLe y z = true →
    charsLe x z = true
  | [], _, _, _, _ => rfl
  | _ :: _, [], _, h1, _ => by simp [charsLe] at h1
  | _ :: _, _ :: _, [], _, h2 => by simp [charsLe] at h2
  | a :: x, b :: y, c :: z, h1, h2 => by
    simp only [charsLe] at h1 h2 ⊢
    by_cases hab : a = b
    · subst hab
      rw [if_pos rfl] at h1
      by_cases hac : a = c
      · subst hac
        rw [if_pos rfl] at h2 ⊢
        exact charsLe_trans x y z h1 h2
      · rw [if_neg hac] at h2 ⊢
        exact h2
    · rw [if_neg hab, decide_eq_true_eq] at h1
      by_cases hbc : b = c
      · subst hbc
        rw [if_neg hab, decide_eq_true_eq]
        exact h1
      · rw [if_neg hbc, decide_eq_true_eq] at h2
        have hac : a < c := lt_trans h1 h2
        rw [if_neg (ne_of_lt hac), decide_eq_true_eq]
        exact hac

theorem strLe_total (a b : String) (h : strLe a b = false) : strLe b a = true :=
  charsLe_total a.data b.data h

theorem strLe_trans (a b c : String) (h1 : strLe a b = true) (h2 : strLe b c = true) :
    strLe a c = true :=
  charsLe_trans a.data b.data c.data h1 h2

theorem insertSorted_perm {α : Type} (le : α → α → Bool) (x : α) :
    ∀ l, (insertSorted le x l).Perm (x :: l)
  | [] => List.Perm.refl _
  | y :: tl => by
    unfold insertSorted
    by_cases h : le x y
    · rw [if_pos h]
    · rw [if_neg h]
      exact (List.Perm.cons y (insertSorted_perm le x tl)).trans (List.Perm.swap x y tl)

theorem sortLines_perm {α : Type} (le : α → α → Bool) : ∀ l, (sortLines le l).Perm l
  | [] => List.Perm.refl _
  | x :: tl => by
    unfold sortLines
    exact (insertSorted_perm le x _).trans (List.Perm.cons x (sortLines_perm le tl))

theorem insertSorted_pairwise {α : Type} (le : α → α → Bool)
    (htot : ∀ a b, le a b = false → le b a = true)
    (htrans : ∀ a b c, le a b = true → le b c = true → le a c = true) (x : α) :
    ∀ l, l.Pairwise (fun a b => le a b = true) →
      (insertSorted le x l).Pairwise (fun a b => le a b = true)
  | [], _ => by simp [insertSorted]
  | y :: tl, hp => by
    rw [List.pairwise_cons] at hp
    unfold insertSorted
    by_cases h : le x y
    · rw [if_pos h, List.pairwise_cons]
      refine ⟨?_, List.pairwise_cons.mpr hp⟩
      intro z hz
      rcases List.mem_cons.mp hz with rfl | hz2
      · exact h
      · exact htrans x y z h (hp.1 z hz2)
    · rw [if_neg h, List.pairwise_cons]
      constructor
      · intro z hz
        have hz2 := (insertSorted_perm le x tl).mem_iff.mp hz
        rcases List.mem_cons.mp hz2 with rfl | hz3
        · exact htot _ _ (by simpa using h)
        · exact hp.1 z hz3
      · exact insertSorted_pairwise le htot htrans x tl hp.2

theorem sortLines_pairwise {α : Type} (le : α → α → Bool)
    (htot : ∀ a b, le a b = false → le b a = true)
    (htrans : ∀ a b c, le a b = true → le b c = true → le a c = true) :
    ∀ l, (sortLines le l).Pairwise (fun a b => le a b = true)
  | [] => List.Pairwise.nil
  | x :: tl => by
    unfold sortLines
    exact insertSorted_pairwise le htot htrans x _ (sortLines_pairwise le htot htrans tl)

/-- The leaves of the nested tree, with their dot paths, in traversal
order (the pairs the writer turns into lines). -/
def leafPairs : List (String × JSValue) → String → List (String × JSValue)
  | [], _ => []
  | (k, v) :: tl, pre =>
    (match v with
     | .vObj fs => leafPairs fs (if pre = "" then k else pre ++ "." ++ k)
     | _ => [((if pre = "" then k else pre ++ "." ++ k), v)]) ++ leafPairs tl pre

theorem envLines_eq_map : ∀ (data : List (String × JSValue)) (pre : String),
    envLines data pre = (leafPairs data pre).map
      (fun kv => envVarNameOf kv.1 ++ "=" ++ formatEnvValue kv.2)
  | [], _ => by simp [envLines, leafPairs]
  | (k, .vObj fs) :: tl, pre => by
    simp only [envLines, leafPairs, List.map_append]
    rw [envLines_eq_map fs (if pre = "" then k else pre ++ "." ++ k),
      envLines_eq_map tl pre]
  | (k, .vNull) :: tl, pre => by
    simp only [envLines, leafPairs, List.map_append, List.map_cons, List.map_nil]
    rw [envLines_eq_map tl pre]
  | (k, .vStr s) :: tl, pre => by
    simp only [envLines, leafPairs, List.map_append, List.map_cons, List.map_nil]
    rw [envLines_eq_map tl pre]
  | (k, .vNum n) :: tl, pre => by
    simp only [envLines, leafPairs, List.map_append, List.map_cons, List.map_nil]
    rw [envLines_eq_map tl pre]
  | (k, .vBool b) :: tl, pre => by
    simp only [envLines, leafPairs, List.map_append, List.map_cons, List.map_nil]
    rw [envLines_eq_map tl pre]
  | (k, .vArr xs) :: tl, pre => by
    simp only [envLines, leafPairs, List.map_append, List.map_cons, List.map_nil]
    rw [envLines_eq_map tl pre]
termination_by data _ => sizeOf data

/-- Claim C8 counterexample: the writer sorts whole `KEY=value` lines,
not keys.  With keys `a1` and `a`, the key order puts `A` before `A1`,
but in the emitted lines `'1'` precedes `'='`, so the `A1` line comes
first: the output is not in by-key order. -/
theorem claim_C8_counterexample :
    formatAsEnvFile [("a1", .vStr "y"), ("a", .vStr "x")] = "A1=y\nA=x" ∧
    envVarNameOf "a" = "A" ∧ envVarNameOf "a1" = "A1" ∧
    strLe "A" "A1" = true ∧ strLe "A1=y" "A=x" = true ∧
    ("A1=y\nA=x" : String) ≠ "A=x\nA1=y" := by
  have hlines : envLines [("a1", .vStr "y"), ("a", .vStr "x")] "" = ["A1=y", "A=x"] := by
    simp [envLines]
    constructor <;> decide
  refine ⟨?_, rfl, rfl, by decide, by decide, by decide⟩
  unfold formatAsEnvFile
  rw [hlines]
  rfl

/-- Claim C8 (amended): env-file output is the flattened leaf lines —
one `KEY=value` line per leaf, the key upper-cased with dot segments
joined by underscores — sorted lexicographically as whole lines (not by
key, as the counterexample shows) and joined by newlines; string values
containing a space or a quote are wrapped in double quotes with inner
double quotes backslash-escaped, other strings pass through, null
renders empty, and non-string non-null leaves render as their JSON
serialization.  The claim's concrete scenario holds. -/
theorem claim_C8_theorem (data : List (String × JSValue)) :
    formatAsEnvFile data = joinSep "\n" (sortLines strLe (envLines data "")) ∧
    (sortLines strLe (envLines data "")).Perm (envLines data "") ∧
    (sortLines strLe (envLines data "")).Pairwise (fun a b => strLe a b = true) ∧
    envLines data "" = (leafPairs data "").map
      (fun kv => envVarNameOf kv.1 ++ "=" ++ formatEnvValue kv.2) ∧
    formatEnvValue .vNull = "" ∧
    (∀ s, (s.data.contains ' ' || s.data.contains '"' || s.data.contains '\'') = true →
      formatEnvValue (.vStr s) = "\"" ++
        String.mk (s.data.flatMap (fun c => if c = '"' then ['\\', '"'] else [c])) ++ "\"") ∧
    (∀ s, (s.data.contains ' ' || s.data.contains '"' || s.data.contains '\'') = false →
      formatEnvValue (.vStr s) = s) ∧
    (∀ v, (∀ s, v ≠ JSValue.vStr s) → v ≠ .vNull → formatEnvValue v = jsonStringify v) ∧
    formatAsEnvFile [("database", .vObj [("host", .vStr "it is \"quoted\"")])]
        = "DATABASE_HOST=\"it is \\\"quoted\\\"\"" := by
  refine ⟨rfl, sortLines_perm strLe _, sortLines_pairwise strLe strLe_total strLe_trans _,
    envLines_eq_map data "", rfl, ?_, ?_, ?_, ?_⟩
  · intro s h
    simp only [formatEnvValue, h, if_true]
  · intro s h
    simp only [formatEnvValue, h, Bool.false_eq_true, if_false]
  · intro v hs hn
    cases v with
    | vNull => exact absurd rfl hn
    | vStr s => exact absurd rfl (hs s)
    | vBool b => rfl
    | vNum n => rfl
    | vArr xs => rfl
    | vObj fs => rfl
  · have hlines : envLines [("database", .vObj [("host", .vStr "it is \"quoted\"")])] ""
        = ["DATABASE_HOST=\"it is \\\"quoted\\\"\""] := by
      simp [envLines]
      decide
    unfold formatAsEnvFile
    rw [hlines]
    rfl
